import Mathlib

/-!
Verification development for the QMLParser repository (r-caso/QMLParser).

The development shallowly embeds the two core components of the repository:

* the lexer (`qml-lexer/src/lexer.cpp`): a single left-to-right byte scan
  over the input, maintaining a pending-identifier buffer and a
  pending-operator-byte buffer, producing a list of typed tokens; and
* the recursive-descent parser (`qml-parser/src/parser.cpp`): a cursor over
  a fixed token list, parameterized by an operator mapping and a selectable
  grammar entry rule, producing an AST of the external QMLExpression model
  or an error message.

Byte strings are modelled as `List Nat` (each element a byte value), token
literals likewise.  C++ `std::expected<Expression, std::string>` is modelled
by an explicit result type; the parser's (partial) recursion is made total
with a step-index (fuel) parameter, with a distinguished out-of-fuel result,
so that genuine divergence of the C++ recursion is expressible.
-/

namespace QMLParser

/-- Token kinds, mirroring `enum class TokenType` in `token.hpp`. -/
inductive TokenType where
  | NIL | EOI | ILLEGAL
  | NOT | AND | OR | IF | EQ
  | NEC | POS
  | FORALL | EXISTS | NOT_EXISTS
  | ID | NEQ
  | VARIABLE
  | IDENTIFIER
  | LPAREN | RPAREN | LBRACKET | RBRACKET | COMMA
deriving DecidableEq, Repr

/-- A lexical token: a literal byte string and a kind, mirroring `struct Token`. -/
structure Token where
  literal : List Nat
  type : TokenType
deriving DecidableEq, Repr

/-- State of the lexer scan: the token list produced so far, the pending
identifier buffer and the pending operator byte buffer (the two accumulators
of `lex` in `lexer.cpp`). -/
structure LexState where
  list : List Token
  identifier : List Nat
  operator_byte_array : List Nat
deriving DecidableEq, Repr

/-- The variable-classification DFA transition function, mirroring the
`variable_dfa` table in `lexer.cpp`: state 0 steps to 1 on `x`/`y`/`z`
(bytes 0x78..0x7A); state 1 steps to 2 on `_` (0x5F) or to 3 on a digit;
states 2 and 3 step to 3 on a digit; everything else is a missing entry. -/
def variable_dfa (state c : Nat) : Option Nat :=
  if state = 0 then
    (if c = 0x78 ∨ c = 0x79 ∨ c = 0x7A then some 1 else none)
  else if state = 1 then
    (if c = 0x5F then some 2
     else if 0x30 ≤ c ∧ c ≤ 0x39 then some 3 else none)
  else if state = 2 then
    (if 0x30 ≤ c ∧ c ≤ 0x39 then some 3 else none)
  else if state = 3 then
    (if 0x30 ≤ c ∧ c ≤ 0x39 then some 3 else none)
  else none

/-- The loop of `isVariable`: step the DFA over the remaining characters,
returning `false` as soon as a transition is missing, and on exhaustion
accept iff the final state is one of the final states 1 and 3. -/
def isVariableGo (state : Nat) : List Nat → Bool
  | [] => state == 1 || state == 3
  | c :: cs =>
    match variable_dfa state c with
    | none => false
    | some s => isVariableGo s cs

/-- Mirrors `isVariable` in `lexer.cpp`: run the DFA from the initial state 0. -/
def isVariable (token : List Nat) : Bool :=
  isVariableGo 0 token

/-- Mirrors the identifier overload of `writeToTokenList`: an empty buffer
emits nothing; otherwise the buffer is classified by `isVariable` and
emitted as a `VARIABLE` or `IDENTIFIER` token, and cleared. -/
def writeIdent (st : LexState) : LexState :=
  if st.identifier = [] then st
  else
    { st with
      list := st.list ++
        [⟨st.identifier, if isVariable st.identifier then .VARIABLE else .IDENTIFIER⟩],
      identifier := [] }

/-- Mirrors the byte-array overload of `writeToTokenList`: an empty buffer
emits nothing; otherwise the buffered bytes are emitted as one token of the
given kind, and the buffer is cleared. -/
def writeOp (st : LexState) (type : TokenType) : LexState :=
  if st.operator_byte_array = [] then st
  else
    { st with
      list := st.list ++ [⟨st.operator_byte_array, type⟩],
      operator_byte_array := [] }

/-- Mirrors the `flush` lambda in `lex`: flush the identifier buffer, then
the operator byte buffer with the given kind. -/
def flushBuffers (st : LexState) (type : TokenType) : LexState :=
  writeOp (writeIdent st) type

/-- Mirrors the `addToList` lambda in `lex`: flush both buffers (operator
bytes as `ILLEGAL`), then emit a token with the given literal and kind. -/
def addToList (st : LexState) (literal : List Nat) (type : TokenType) : LexState :=
  let st := flushBuffers st .ILLEGAL
  { st with list := st.list ++ [⟨literal, type⟩] }

/-- Mirrors the `initOp` lambda in `lex`: flush both buffers (operator bytes
as `ILLEGAL`), then start the operator byte buffer with the current byte. -/
def initOp (st : LexState) (curr : Nat) : LexState :=
  let st := flushBuffers st .ILLEGAL
  { st with operator_byte_array := st.operator_byte_array ++ [curr] }

/-- Mirrors the `addToOp` lambda in `lex`: if the operator buffer is
non-empty and its last byte is the expected previous byte, push the current
byte; otherwise flush the buffer as `ILLEGAL` (a no-op on an empty buffer),
discarding the current byte. -/
def addToOp (st : LexState) (curr prev : Nat) : LexState :=
  if st.operator_byte_array.getLast? = some prev then
    { st with operator_byte_array := st.operator_byte_array ++ [curr] }
  else writeOp st .ILLEGAL

/-- Mirrors the `addToOpAndFlush` lambda in `lex`: if the operator buffer is
non-empty and its last byte is the expected previous byte, push the current
byte and flush the buffer as a token of the given kind; otherwise flush the
buffer as `ILLEGAL` (a no-op on an empty buffer), discarding the current
byte. -/
def addToOpAndFlush (st : LexState) (curr prev : Nat) (type : TokenType) : LexState :=
  if st.operator_byte_array.getLast? = some prev then
    writeOp { st with operator_byte_array := st.operator_byte_array ++ [curr] } type
  else writeOp st .ILLEGAL

/-- Mirrors `isValidIdentifierSymbol` in `lexer.cpp`: `_`, `.`, digits and
ASCII letters. -/
def isValidIdentifierSymbol (c : Nat) : Bool :=
  c == 0x5F || c == 0x2E
    || (0x30 ≤ c && c ≤ 0x39)
    || (0x41 ≤ c && c ≤ 0x5A)
    || (0x61 ≤ c && c ≤ 0x7A)

/-- The body of the `for` loop of `lex` in `lexer.cpp`, processing one input
byte `c` in scan state `st`.  The branch order and branch bodies follow the
source's `if`/`else if` chain exactly. -/
def lexStep (st : LexState) (c : Nat) : LexState :=
  if c = 0x20 then flushBuffers st .ILLEGAL
  else if c = 0x28 then addToList st [0x28] .LPAREN
  else if c = 0x29 then addToList st [0x29] .RPAREN
  else if c = 0x5B then addToList st [0x5B] .LBRACKET
  else if c = 0x5D then addToList st [0x5D] .RBRACKET
  else if c = 0x2C then addToList st [0x2C] .COMMA
  else if c = 0xC2 then initOp st 0xC2
  else if c = 0xAC then addToOpAndFlush st 0xAC 0xC2 .NOT
  else if c = 0xE2 then initOp st 0xE2
  else if c = 0x86 then addToOp st 0x86 0xE2
  else if c = 0x92 then addToOpAndFlush st 0x92 0x86 .IF
  else if c = 0x94 then addToOpAndFlush st 0x94 0x86 .EQ
  else if c = 0x88 then addToOp st 0x88 0xE2
  else if c = 0x80 then addToOpAndFlush st 0x80 0x88 .FORALL
  else if c = 0x83 then addToOpAndFlush st 0x83 0x88 .EXISTS
  else if c = 0x84 then
    -- third byte of not_exists and of possibility: dispatch on the last
    -- buffered byte (0x88 vs 0x8B); otherwise flush as ILLEGAL (a no-op on
    -- an empty buffer)
    match st.operator_byte_array.getLast? with
    | some 0x88 =>
        writeOp { st with operator_byte_array := st.operator_byte_array ++ [0x84] } .NOT_EXISTS
    | some 0x8B =>
        writeOp { st with operator_byte_array := st.operator_byte_array ++ [0x84] } .POS
    | _ => writeOp st .ILLEGAL
  else if c = 0xA7 then addToOpAndFlush st 0xA7 0x88 .AND
  else if c = 0xA8 then addToOpAndFlush st 0xA8 0x88 .OR
  else if c = 0x89 then addToOp st 0x89 0xE2
  else if c = 0xA0 then addToOpAndFlush st 0xA0 0x89 .NEQ
  else if c = 0x8B then addToOp st 0x8B 0xE2
  else if c = 0x96 then addToOp st 0x96 0xE2
  else if c = 0xA1 then addToOpAndFlush st 0xA1 0x96 .NEC
  else if c = 0x3D then
    let st := flushBuffers st .ILLEGAL
    { st with list := st.list ++ [⟨[0x3D], .ID⟩] }
  else if isValidIdentifierSymbol c then
    { st with identifier := st.identifier ++ [c] }
  else
    { st with list := st.list ++ [⟨[c], .ILLEGAL⟩] }

/-- The literal of the terminal token appended by `lex`: the bytes of "EOI". -/
def eoiLiteral : List Nat := [0x45, 0x4F, 0x49]

/-- The terminal token appended by `lex`. -/
def eoiToken : Token := ⟨eoiLiteral, .EOI⟩

/-- Mirrors `lex` in `lexer.cpp`: scan all bytes, flush both accumulators,
and append the terminal `EOI` token. -/
def lex (formula : List Nat) : List Token :=
  let st := formula.foldl lexStep ⟨[], [], []⟩
  let st := flushBuffers st .ILLEGAL
  st.list ++ [eoiToken]

/-! ## The external QMLExpression model

The AST node types are external collaborators of the parser (the
QMLExpression library); per the specification they are consumed, not owned.
They are modelled here as plain inductives, following the interface
described in the specification (§3, §6) and the constructor calls made by
`parser.cpp`; tree equality models equality of AST shape. -/

/-- Semantic operator tags of the external Expression model, as used by the
three stock mappings in `maps.cpp`. -/
inductive Operator where
  | NEGATION | CONJUNCTION | DISJUNCTION | CONDITIONAL | BICONDITIONAL
  | NECESSITY | POSSIBILITY
  | DEONTIC_NECESSITY | DEONTIC_POSSIBILITY
  | EPISTEMIC_NECESSITY | EPISTEMIC_POSSIBILITY
deriving DecidableEq, Repr

/-- Quantifier tag of the external Expression model. -/
inductive Quantifier where
  | UNIVERSAL | EXISTENTIAL
deriving DecidableEq, Repr

/-- Kind tag of a `Term` of the external Expression model. -/
inductive TermType where
  | VARIABLE | CONSTANT
deriving DecidableEq, Repr

/-- A `Term` of the external Expression model: a name and a kind tag. -/
structure Term where
  name : List Nat
  type : TermType
deriving DecidableEq, Repr

/-- AST node variants of the external Expression model, as constructed by
the parser (Predication, Identity, Unary, Binary, Quantification). -/
inductive Expression where
  | predication (predicate : List Nat) (arguments : List Term)
  | identity (lhs rhs : Term)
  | unary (op : Operator) (operand : Expression)
  | binary (op : Operator) (lhs rhs : Expression)
  | quantification (quantifier : Quantifier) (variable_ : Term) (scope : Expression)
deriving DecidableEq, Repr

/-- Mirrors `mapToAlethicOperator` in `maps.cpp`. -/
def mapToAlethicOperator : TokenType → Option Operator
  | .NOT => some .NEGATION
  | .AND => some .CONJUNCTION
  | .OR => some .DISJUNCTION
  | .IF => some .CONDITIONAL
  | .EQ => some .BICONDITIONAL
  | .NEC => some .NECESSITY
  | .POS => some .POSSIBILITY
  | _ => none

/-- Mirrors `mapToDeonticOperator` in `maps.cpp`. -/
def mapToDeonticOperator : TokenType → Option Operator
  | .NOT => some .NEGATION
  | .AND => some .CONJUNCTION
  | .OR => some .DISJUNCTION
  | .IF => some .CONDITIONAL
  | .EQ => some .BICONDITIONAL
  | .NEC => some .DEONTIC_NECESSITY
  | .POS => some .DEONTIC_POSSIBILITY
  | _ => none

/-- Mirrors `mapToEpistemicOperator` in `maps.cpp`. -/
def mapToEpistemicOperator : TokenType → Option Operator
  | .NOT => some .NEGATION
  | .AND => some .CONJUNCTION
  | .OR => some .DISJUNCTION
  | .IF => some .CONDITIONAL
  | .EQ => some .BICONDITIONAL
  | .NEC => some .EPISTEMIC_NECESSITY
  | .POS => some .EPISTEMIC_POSSIBILITY
  | _ => none

/-! ## The parser -/

/-- Mirrors `isTerm` in `parser.cpp`. -/
def isTerm (type : TokenType) : Bool :=
  type == .VARIABLE || type == .IDENTIFIER

/-- Mirrors `isUnaryOperator` in `parser.cpp`. -/
def isUnaryOperator (type : TokenType) : Bool :=
  type == .NOT || type == .NEC || type == .POS

/-- Mirrors `isQuantifier` in `parser.cpp`. -/
def isQuantifier (type : TokenType) : Bool :=
  type == .FORALL || type == .EXISTS || type == .NOT_EXISTS

/-- The grammar rules of `Parser` that may be passed as entry points.  In the
C++ source the entry point is a `ParseFunction` (an arbitrary function
value); the specification and the claims quantify only over the grammar
rules, so the entry rule is modelled as this enumeration. -/
inductive Rule where
  | equivalence | implication | conjunction_disjunction | clause
  | quantificational | unary | atomic | predication | identity | inequality
deriving DecidableEq, Repr

/-- The parser's state, mirroring the data members of `class Parser`:
cursor index `m_Index`, lookahead token kind `m_LookAhead`, the owned token
list `m_TokenList`, the operator mapping `m_MapToOperator`, and the active
entry rule `m_EntryPoint`. -/
structure PState where
  index : Nat
  lookAhead : TokenType
  tokens : List Token
  map : TokenType → Option Operator
  entry : Rule

/-- A junk token for total modelling of out-of-range `std::vector` access on
paths that the parser never takes (guarded by prior checks). -/
def defaultToken : Token := ⟨[], .NIL⟩

/-- Mirrors `Parser::getToken`: in-range access, clamped to the LAST token
when the index is out of range. -/
def PState.getToken (st : PState) (i : Nat) : Token :=
  if i < st.tokens.length then st.tokens.getD i defaultToken
  else st.tokens.getD (st.tokens.length - 1) defaultToken

/-- Mirrors `Parser::peek`: the kind of the token `off` places ahead of the
cursor, or `EOI` when out of range. -/
def PState.peek (st : PState) (off : Nat) : TokenType :=
  if st.index + off < st.tokens.length then
    (st.tokens.getD (st.index + off) defaultToken).type
  else .EOI

/-- Mirrors `Parser::advance`: move the cursor forward unless the lookahead
is already `EOI`, recomputing the lookahead from the new index. -/
def PState.advance (st : PState) : PState :=
  if st.lookAhead ≠ .EOI then
    { st with
      index := st.index + 1,
      lookAhead :=
        if st.index + 1 < st.tokens.length then
          (st.tokens.getD (st.index + 1) defaultToken).type
        else .EOI }
  else st

/-- Render a literal byte string into the `std::string` error channel (one
character per byte, as C++ `std::format` does for a byte string). -/
def litStr (bs : List Nat) : String :=
  String.mk (bs.map (fun b => Char.ofNat b))

/-- Results of a parser rule: a parsed expression or an error message, each
with the parser state after the call (the C++ methods mutate the member
cursor in place), or fuel exhaustion of the step-indexed model. -/
inductive POut where
  | ok (e : Expression) (st : PState)
  | err (msg : String) (st : PState)
  | fuelOut

/-- Call descriptors for the mutually recursive parser rules: a grammar rule,
or one of the `while` loops of the binary levels (carrying the left operand
accumulated so far), or the argument loop of `predication` (carrying the
backtracking point, predicate name and arguments accumulated so far). -/
inductive Call where
  | rule (r : Rule)
  | eqLoop (lhs : Expression)
  | impLoop (lhs : Expression)
  | cdLoop (lhs : Expression)
  | predLoop (bp : Nat) (predicate : List Nat) (arguments : List Term)

/-- One step of the parser's recursion: the bodies of the rule methods of
`Parser` in `parser.cpp`, with all recursive calls made through `rec`.
Each branch mirrors the corresponding C++ method line by line. -/
def runStep (rec : Call → PState → POut) (c : Call) (st : PState) : POut :=
  match c with
  | .rule .equivalence =>
    -- Parser::equivalence, parser.cpp:99
    match rec (.rule .implication) st with
    | .fuelOut => .fuelOut
    | .err m st1 => .err m st1
    | .ok lhs st1 => rec (.eqLoop lhs) st1
  | .eqLoop lhs =>
    -- the while loop of Parser::equivalence
    if st.peek 0 = .EQ then
      let st1 := st.advance
      match rec (.rule .implication) st1 with
      | .fuelOut => .fuelOut
      | .err m st2 => .err ("Expected clause after '↔' but got : " ++ m) st2
      | .ok rhs st2 =>
        match st.map .EQ with
        | some op => rec (.eqLoop (.binary op lhs rhs)) st2
        | none => .err "Non-existent map for token type EQ (↔)" st2
    else .ok lhs st
  | .rule .implication =>
    -- Parser::implication, parser.cpp:126
    match rec (.rule .conjunction_disjunction) st with
    | .fuelOut => .fuelOut
    | .err m st1 => .err m st1
    | .ok lhs st1 => rec (.impLoop lhs) st1
  | .impLoop lhs =>
    -- the while loop of Parser::implication
    if st.peek 0 = .IF then
      let st1 := st.advance
      match rec (.rule .conjunction_disjunction) st1 with
      | .fuelOut => .fuelOut
      | .err m st2 => .err ("Expected clause after '→' but got : " ++ m) st2
      | .ok rhs st2 =>
        match st.map .IF with
        | some op => rec (.impLoop (.binary op lhs rhs)) st2
        | none => .err "Non-existent map for token type IMP (→)" st2
    else .ok lhs st
  | .rule .conjunction_disjunction =>
    -- Parser::conjunction_disjunction, parser.cpp:153
    match rec (.rule .clause) st with
    | .fuelOut => .fuelOut
    | .err m st1 => .err m st1
    | .ok lhs st1 => rec (.cdLoop lhs) st1
  | .cdLoop lhs =>
    -- the while loop of Parser::conjunction_disjunction; unlike the other
    -- two binary levels, the operator mapping is consulted BEFORE the
    -- operator token is consumed
    if st.peek 0 = .OR ∨ st.peek 0 = .AND then
      let currentToken := st.getToken st.index
      let op := if currentToken.type = .OR then st.map .OR else st.map .AND
      let opName := if currentToken.type = .OR then "OR (∨)" else "AND (∧)"
      match op with
      | none => .err ("Non-existent map for token type " ++ opName) st
      | some op =>
        let st1 := st.advance
        match rec (.rule .clause) st1 with
        | .fuelOut => .fuelOut
        | .err m st2 =>
          .err ("Expected clause after '" ++ litStr currentToken.literal ++ "' but got : " ++ m) st2
        | .ok rhs st2 => rec (.cdLoop (.binary op lhs rhs)) st2
    else .ok lhs st
  | .rule .clause =>
    -- Parser::clause, parser.cpp:184: predictive dispatch on the current
    -- token (read through getToken, which clamps out-of-range access to the
    -- last token)
    let currentToken := st.getToken st.index
    if isTerm currentToken.type then rec (.rule .atomic) st
    else if isUnaryOperator currentToken.type then rec (.rule .unary) st
    else if isQuantifier currentToken.type then rec (.rule .quantificational) st
    else if currentToken.type = .LPAREN then
      let st1 := st.advance
      match rec (.rule st.entry) st1 with
      | .fuelOut => .fuelOut
      | .err m st2 => .err m st2
      | .ok e st2 =>
        if st2.peek 0 ≠ .RPAREN then
          .err ("Expected ')' after '" ++ litStr currentToken.literal ++ "' but got '"
                ++ litStr (st2.getToken st2.index).literal ++ "'") st2
        else .ok e st2.advance
    else if currentToken.type = .LBRACKET then
      let st1 := st.advance
      match rec (.rule st.entry) st1 with
      | .fuelOut => .fuelOut
      | .err m st2 => .err m st2
      | .ok e st2 =>
        if st2.peek 0 ≠ .RBRACKET then
          .err ("Expected ']' after '" ++ litStr currentToken.literal ++ "' but got '"
                ++ litStr (st2.getToken st2.index).literal ++ "'") st2
        else .ok e st2.advance
    else .err ("Unexpected token (" ++ litStr currentToken.literal ++ ")") st
  | .rule .quantificational =>
    -- Parser::quantificational, parser.cpp:229
    if st.peek 0 ≠ .FORALL ∧ st.peek 0 ≠ .EXISTS ∧ st.peek 0 ≠ .NOT_EXISTS then
      .err "" st
    else if st.peek 1 ≠ .VARIABLE then
      .err ("Expected variable after '" ++ litStr (st.getToken st.index).literal
            ++ "' but got '" ++ litStr (st.getToken (st.index + 1)).literal ++ "'") st
    else
      let quantifier :=
        if (st.tokens.getD st.index defaultToken).type = .FORALL then
          Quantifier.UNIVERSAL
        else Quantifier.EXISTENTIAL
      let negated := (st.tokens.getD st.index defaultToken).type = .NOT_EXISTS
      let st1 := st.advance   -- consume quantifier
      let variable_ : Term := ⟨(st1.tokens.getD st1.index defaultToken).literal, .VARIABLE⟩
      let st2 := st1.advance  -- consume variable
      match rec (.rule .clause) st2 with
      | .fuelOut => .fuelOut
      | .err m st3 => .err m st3
      | .ok scope st3 =>
        let quantified := Expression.quantification quantifier variable_ scope
        if negated then
          match st.map .NOT with
          | some op => .ok (.unary op quantified) st3
          | none => .err "Non-existent map for token type NOT (¬)" st3
        else .ok quantified st3
  | .rule .unary =>
    -- Parser::unary, parser.cpp:266
    if ¬ isUnaryOperator (st.peek 0) then .err "" st
    else
      let currentToken := st.getToken st.index
      let op :=
        if currentToken.type = .NOT then st.map .NOT
        else if currentToken.type = .POS then st.map .POS
        else st.map .NEC
      let opName :=
        if currentToken.type = .NOT then "NOT (¬)"
        else if currentToken.type = .POS then "POS (⋄)"
        else "NEC (□)"
      match op with
      | none => .err ("Non-existent map for unary operator " ++ opName) st
      | some op =>
        match rec (.rule .clause) st.advance with
        | .fuelOut => .fuelOut
        | .err _ st2 => .err ("Expected clause after unary operator " ++ opName) st2
        | .ok e st2 => .ok (.unary op e) st2
  | .rule .atomic =>
    -- Parser::atomic, parser.cpp:294
    if st.peek 0 ≠ .IDENTIFIER ∧ st.peek 0 ≠ .VARIABLE then .err "" st
    else if st.peek 1 = .LPAREN then rec (.rule .predication) st
    else if st.peek 1 = .ID then rec (.rule .identity) st
    else if st.peek 1 = .NEQ then rec (.rule .inequality) st
    else
      .err ("Expected '(', '=', or '≠' after '" ++ litStr (st.getToken st.index).literal
            ++ "' but got '" ++ litStr (st.getToken (st.index + 1)).literal ++ "'") st
  | .rule .predication =>
    -- Parser::predication, parser.cpp:315
    if st.peek 0 ≠ .IDENTIFIER then .err "" st
    else if st.peek 1 ≠ .LPAREN then .err "" st
    else if ¬ isTerm (st.peek 2) then
      .err ("Expected term after '(' but got '"
            ++ litStr (st.getToken (st.index + 2)).literal ++ "'") st
    else if st.peek 3 ≠ .RPAREN ∧ st.peek 3 ≠ .COMMA then
      .err ("Expected ',' or ')' after term '" ++ litStr (st.getToken (st.index + 2)).literal
            ++ "' but got '" ++ litStr (st.getToken (st.index + 3)).literal ++ "'") st
    else
      let backtracking_point := st.index
      let predicate := (st.tokens.getD st.index defaultToken).literal
      let st1 := st.advance.advance  -- consume predicate, consume LPAREN
      let t0 := st1.tokens.getD st1.index defaultToken
      let type0 : TermType := if t0.type = .VARIABLE then .VARIABLE else .CONSTANT
      let st2 := st1.advance  -- consume first argument
      rec (.predLoop backtracking_point predicate [⟨t0.literal, type0⟩]) st2
  | .predLoop bp predicate arguments =>
    -- the argument while loop of Parser::predication, including the final
    -- RPAREN check, both with the bounded backtrack on failure
    if st.peek 0 = .COMMA then
      if st.peek 1 ≠ .IDENTIFIER ∧ st.peek 1 ≠ .VARIABLE then
        let error_string :=
          "Expected term after ',' but got '" ++ litStr (st.getToken (st.index + 1)).literal ++ "'"
        .err error_string
          { st with index := bp, lookAhead := (st.tokens.getD bp defaultToken).type }
      else
        let st1 := st.advance  -- consume comma
        let t := st1.tokens.getD st1.index defaultToken
        let type1 : TermType := if t.type = .VARIABLE then .VARIABLE else .CONSTANT
        rec (.predLoop bp predicate (arguments ++ [⟨t.literal, type1⟩])) st1.advance
    else if st.peek 0 ≠ .RPAREN then
      .err ("Expected ')' after argument list but got '"
            ++ litStr (st.getToken st.index).literal ++ "'")
        { st with index := bp, lookAhead := (st.tokens.getD bp defaultToken).type }
    else .ok (.predication predicate arguments) st.advance
  | .rule .identity =>
    -- Parser::identity, parser.cpp:375
    if st.peek 0 ≠ .IDENTIFIER ∧ st.peek 0 ≠ .VARIABLE then .err "" st
    else if st.peek 1 ≠ .ID then .err "" st
    else if st.peek 2 ≠ .IDENTIFIER ∧ st.peek 2 ≠ .VARIABLE then
      .err ("Expected singular term in RHS of '=' but got '"
            ++ litStr (st.getToken (st.index + 2)).literal ++ "'") st
    else
      let tl := st.tokens.getD st.index defaultToken
      let lhs : Term := ⟨tl.literal, if tl.type = .VARIABLE then .VARIABLE else .CONSTANT⟩
      let st1 := st.advance.advance  -- consume lhs, consume ID
      let tr := st1.tokens.getD st1.index defaultToken
      let rhs : Term := ⟨tr.literal, if tr.type = .VARIABLE then .VARIABLE else .CONSTANT⟩
      .ok (.identity lhs rhs) st1.advance
  | .rule .inequality =>
    -- Parser::inequality, parser.cpp:403 (note: the error message reads the
    -- token at index + 1, as in the source)
    if st.peek 0 ≠ .IDENTIFIER ∧ st.peek 0 ≠ .VARIABLE then .err "" st
    else if st.peek 1 ≠ .NEQ then .err "" st
    else if st.peek 2 ≠ .IDENTIFIER ∧ st.peek 2 ≠ .VARIABLE then
      .err ("Expected singular term in RHS of '≠' but got '"
            ++ litStr (st.getToken (st.index + 1)).literal ++ "'") st
    else
      let tl := st.tokens.getD st.index defaultToken
      let lhs : Term := ⟨tl.literal, if tl.type = .VARIABLE then .VARIABLE else .CONSTANT⟩
      let st1 := st.advance.advance  -- consume lhs, consume NEQ
      let tr := st1.tokens.getD st1.index defaultToken
      let rhs : Term := ⟨tr.literal, if tr.type = .VARIABLE then .VARIABLE else .CONSTANT⟩
      let st2 := st1.advance  -- consume rhs
      let idNode := Expression.identity lhs rhs
      match st.map .NOT with
      | some op => .ok (.unary op idNode) st2
      | none => .err "Non-existent map for token type NOT (¬)" st2

/-- The step-indexed interpreter of the parser's recursion: `run (n+1)` runs
one `runStep` with recursive calls at fuel `n`; fuel 0 is exhaustion.  The
C++ methods are the limit of this chain; a call that yields `.fuelOut` for
every fuel corresponds to a C++ call that never returns. -/
def run : Nat → Call → PState → POut
  | 0, _, _ => .fuelOut
  | n + 1, c, st => runStep (run n) c st

/-- Mirrors `Parser::sentence`: run the entry rule, then require the cursor
to be at `EOI`. -/
def sentence (fuel : Nat) (st : PState) : POut :=
  match run fuel (.rule st.entry) st with
  | .fuelOut => .fuelOut
  | .err m st1 => .err m st1
  | .ok e st1 =>
    if st1.peek 0 ≠ .EOI then
      .err ("Unexpected symbol (" ++ litStr (st1.getToken st1.index).literal ++ ")") st1
    else .ok e st1

/-- Mirrors `Parser::parse`: reset the cursor and lookahead, record the
entry rule, fail on an empty token list with the dedicated message, and
otherwise run `sentence`. -/
def Parser.parse (fuel : Nat) (p : PState) (entryPoint : Rule) : POut :=
  let st : PState :=
    { index := 0,
      lookAhead := if p.tokens.isEmpty then .EOI else (p.tokens.getD 0 defaultToken).type,
      tokens := p.tokens, map := p.map, entry := entryPoint }
  if p.tokens.isEmpty then .err "Empty input string, nothing to do" st
  else sentence fuel st

/-- The result component of a parser outcome, dropping the final cursor
state (mirroring the `std::expected<Expression, std::string>` return value
of the C++ methods); `none` is fuel exhaustion. -/
def POut.toResult : POut → Option (Except String Expression)
  | .ok e _ => some (.ok e)
  | .err m _ => some (.error m)
  | .fuelOut => none

/-- The state component of a parser outcome, with a fallback for fuel
exhaustion. -/
def POut.stateD : POut → PState → PState
  | .ok _ st, _ => st
  | .err _ st, _ => st
  | .fuelOut, d => d

/-- Mirrors the convenience `parse` free function in `parser.cpp`: lex the
formula and parse the resulting token list with a fresh parser. -/
def parse (fuel : Nat) (formula : List Nat) (entryPoint : Rule)
    (mappingFunction : TokenType → Option Operator) : POut :=
  Parser.parse fuel ⟨0, .NIL, lex formula, mappingFunction, entryPoint⟩ entryPoint

/-! ## Specification-side definitions

These definitions transcribe statements of the specification (the §6 symbol
table, the §4.1 variable grammar) for comparison against the embedded code. -/

/-- A digit in the sense of the spec's variable grammar (§4.1). -/
def isSpecDigit (c : Nat) : Prop := 0x30 ≤ c ∧ c ≤ 0x39

instance (c : Nat) : Decidable (isSpecDigit c) := by
  unfold isSpecDigit; infer_instance

/-- The spec's characterization of a variable name (§4.1): exactly one of
`x`/`y`/`z`; or one of `x`/`y`/`z` followed by one or more digits; or one of
`x`/`y`/`z` followed by `_` followed by one or more digits. -/
def specVariable (s : List Nat) : Prop :=
  ∃ h rest, s = h :: rest ∧ (h = 0x78 ∨ h = 0x79 ∨ h = 0x7A) ∧
    (rest = [] ∨
     (rest ≠ [] ∧ ∀ c ∈ rest, isSpecDigit c) ∨
     (∃ ds, rest = 0x5F :: ds ∧ ds ≠ [] ∧ ∀ c ∈ ds, isSpecDigit c))

/-- The normative §6 symbol table: canonical UTF-8 byte sequence and the
token kind the lexer must produce for it. -/
def symbolTable : List (List Nat × TokenType) :=
  [([0x3D], .ID),                 -- =  IDENTITY
   ([0xC2, 0xAC], .NOT),          -- ¬  NEGATION
   ([0xE2, 0x86, 0x92], .IF),     -- →  IMPLICATION
   ([0xE2, 0x86, 0x94], .EQ),     -- ↔  EQUIVALENCE
   ([0xE2, 0x88, 0x80], .FORALL), -- ∀  FORALL
   ([0xE2, 0x88, 0x83], .EXISTS), -- ∃  EXISTS
   ([0xE2, 0x88, 0x84], .NOT_EXISTS), -- ∄  NOT_EXISTS
   ([0xE2, 0x88, 0xA7], .AND),    -- ∧  CONJUNCTION
   ([0xE2, 0x88, 0xA8], .OR),     -- ∨  DISJUNCTION
   ([0xE2, 0x89, 0xA0], .NEQ),    -- ≠  INEQUALITY
   ([0xE2, 0x8B, 0x84], .POS),    -- ⋄  DIAMOND
   ([0xE2, 0x96, 0xA1], .NEC)]    -- □  SQUARE

/-- The multi-byte entries of the symbol table (the ones with truncations
and non-trivial reorderings). -/
def multiByteSymbols : List (List Nat × TokenType) :=
  symbolTable.filter (fun s => 2 ≤ s.1.length)

/-- The truncations of a byte sequence: its proper non-empty leading
segments. -/
def truncations (bs : List Nat) : List (List Nat) :=
  ((List.range bs.length).drop 1).map (fun k => bs.take k)

/-- All lists obtained by inserting `x` at some position of the given list. -/
def insertEverywhere (x : Nat) : List Nat → List (List Nat)
  | [] => [[x]]
  | y :: ys => (x :: y :: ys) :: (insertEverywhere x ys).map (fun zs => y :: zs)

/-- All arrangements (permutations) of a byte sequence, by structural
recursion so that it evaluates by kernel reduction. -/
def allArrangements : List Nat → List (List Nat)
  | [] => [[]]
  | x :: xs => (allArrangements xs).flatMap (insertEverywhere x)

/-- The reorderings of a byte sequence: its arrangements other than itself. -/
def reorderings (bs : List Nat) : List (List Nat) :=
  (allArrangements bs).filter (fun p => p ≠ bs)

/-- Every token of the list is `ILLEGAL` or `EOI` (no symbol/operator kind). -/
def onlyIllegalOrEOI (ts : List Token) : Bool :=
  ts.all (fun t => t.type == .ILLEGAL || t.type == .EOI)

/-- Some token of the list is `ILLEGAL`. -/
def hasIllegal (ts : List Token) : Bool :=
  ts.any (fun t => t.type == .ILLEGAL)

/-- The continuation bytes of the multi-byte symbols, i.e. the bytes handled
by the `addToOp`/`addToOpAndFlush` branches (and the `0x84` dispatch) of
`lex`. -/
def continuationBytes : List Nat :=
  [0xAC, 0x80, 0x83, 0x84, 0x86, 0x88, 0x89, 0x8B, 0x92, 0x94, 0x96, 0xA0, 0xA1, 0xA7, 0xA8]

/-- The buffer-final byte(s) a continuation byte expects, per the `prev`
arguments (and the `0x84` switch) in `lex`. -/
def expectedPrev (c : Nat) : List Nat :=
  if c = 0xAC then [0xC2]
  else if c = 0x86 then [0xE2]
  else if c = 0x92 then [0x86]
  else if c = 0x94 then [0x86]
  else if c = 0x88 then [0xE2]
  else if c = 0x80 then [0x88]
  else if c = 0x83 then [0x88]
  else if c = 0x84 then [0x88, 0x8B]
  else if c = 0xA7 then [0x88]
  else if c = 0xA8 then [0x88]
  else if c = 0x89 then [0xE2]
  else if c = 0xA0 then [0x89]
  else if c = 0x8B then [0xE2]
  else if c = 0x96 then [0xE2]
  else if c = 0xA1 then [0x96]
  else []

/-! ## Lexer lemmas -/

/-- No token of the list is `EOI`. -/
def noEOI (ts : List Token) : Prop := ∀ t ∈ ts, t.type ≠ TokenType.EOI

theorem noEOI_writeIdent (st : LexState) (h : noEOI st.list) :
    noEOI (writeIdent st).list := by
  unfold writeIdent
  split
  · exact h
  · intro t ht
    rcases List.mem_append.1 ht with hl | hl
    · exact h t hl
    · simp only [List.mem_singleton] at hl
      subst hl
      dsimp only
      split <;> simp

theorem noEOI_writeOp (st : LexState) (ty : TokenType) (hty : ty ≠ .EOI)
    (h : noEOI st.list) : noEOI (writeOp st ty).list := by
  unfold writeOp
  split
  · exact h
  · intro t ht
    rcases List.mem_append.1 ht with hl | hl
    · exact h t hl
    · simp only [List.mem_singleton] at hl
      subst hl
      exact hty

theorem noEOI_flushBuffers (st : LexState) (ty : TokenType) (hty : ty ≠ .EOI)
    (h : noEOI st.list) : noEOI (flushBuffers st ty).list :=
  noEOI_writeOp _ _ hty (noEOI_writeIdent _ h)

theorem noEOI_addToList (st : LexState) (lit : List Nat) (ty : TokenType)
    (hty : ty ≠ .EOI) (h : noEOI st.list) : noEOI (addToList st lit ty).list := by
  unfold addToList
  intro t ht
  rcases List.mem_append.1 ht with hl | hl
  · exact noEOI_flushBuffers st .ILLEGAL (by simp) h t hl
  · simp only [List.mem_singleton] at hl
    subst hl
    exact hty

theorem noEOI_initOp (st : LexState) (curr : Nat) (h : noEOI st.list) :
    noEOI (initOp st curr).list :=
  noEOI_flushBuffers st .ILLEGAL (by simp) h

theorem noEOI_addToOp (st : LexState) (curr prev : Nat) (h : noEOI st.list) :
    noEOI (addToOp st curr prev).list := by
  unfold addToOp
  split
  · exact h
  · exact noEOI_writeOp _ _ (by simp) h

theorem noEOI_addToOpAndFlush (st : LexState) (curr prev : Nat) (ty : TokenType)
    (hty : ty ≠ .EOI) (h : noEOI st.list) : noEOI (addToOpAndFlush st curr prev ty).list := by
  unfold addToOpAndFlush
  split
  · exact noEOI_writeOp _ _ hty h
  · exact noEOI_writeOp _ _ (by simp) h

theorem noEOI_lexStep (st : LexState) (c : Nat) (h : noEOI st.list) :
    noEOI (lexStep st c).list := by
  unfold lexStep
  by_cases h1 : c = 0x20
  · rw [if_pos h1]; exact noEOI_flushBuffers _ _ (by simp) h
  rw [if_neg h1]
  by_cases h2 : c = 0x28
  · rw [if_pos h2]; exact noEOI_addToList _ _ _ (by simp) h
  rw [if_neg h2]
  by_cases h3 : c = 0x29
  · rw [if_pos h3]; exact noEOI_addToList _ _ _ (by simp) h
  rw [if_neg h3]
  by_cases h4 : c = 0x5B
  · rw [if_pos h4]; exact noEOI_addToList _ _ _ (by simp) h
  rw [if_neg h4]
  by_cases h5 : c = 0x5D
  · rw [if_pos h5]; exact noEOI_addToList _ _ _ (by simp) h
  rw [if_neg h5]
  by_cases h6 : c = 0x2C
  · rw [if_pos h6]; exact noEOI_addToList _ _ _ (by simp) h
  rw [if_neg h6]
  by_cases h7 : c = 0xC2
  · rw [if_pos h7]; exact noEOI_initOp _ _ h
  rw [if_neg h7]
  by_cases h8 : c = 0xAC
  · rw [if_pos h8]; exact noEOI_addToOpAndFlush _ _ _ _ (by simp) h
  rw [if_neg h8]
  by_cases h9 : c = 0xE2
  · rw [if_pos h9]; exact noEOI_initOp _ _ h
  rw [if_neg h9]
  by_cases h10 : c = 0x86
  · rw [if_pos h10]; exact noEOI_addToOp _ _ _ h
  rw [if_neg h10]
  by_cases h11 : c = 0x92
  · rw [if_pos h11]; exact noEOI_addToOpAndFlush _ _ _ _ (by simp) h
  rw [if_neg h11]
  by_cases h12 : c = 0x94
  · rw [if_pos h12]; exact noEOI_addToOpAndFlush _ _ _ _ (by simp) h
  rw [if_neg h12]
  by_cases h13 : c = 0x88
  · rw [if_pos h13]; exact noEOI_addToOp _ _ _ h
  rw [if_neg h13]
  by_cases h14 : c = 0x80
  · rw [if_pos h14]; exact noEOI_addToOpAndFlush _ _ _ _ (by simp) h
  rw [if_neg h14]
  by_cases h15 : c = 0x83
  · rw [if_pos h15]; exact noEOI_addToOpAndFlush _ _ _ _ (by simp) h
  rw [if_neg h15]
  by_cases h16 : c = 0x84
  · rw [if_pos h16]
    split
    · exact noEOI_writeOp _ _ (by simp) h
    · exact noEOI_writeOp _ _ (by simp) h
    · exact noEOI_writeOp _ _ (by simp) h
  rw [if_neg h16]
  by_cases h17 : c = 0xA7
  · rw [if_pos h17]; exact noEOI_addToOpAndFlush _ _ _ _ (by simp) h
  rw [if_neg h17]
  by_cases h18 : c = 0xA8
  · rw [if_pos h18]; exact noEOI_addToOpAndFlush _ _ _ _ (by simp) h
  rw [if_neg h18]
  by_cases h19 : c = 0x89
  · rw [if_pos h19]; exact noEOI_addToOp _ _ _ h
  rw [if_neg h19]
  by_cases h20 : c = 0xA0
  · rw [if_pos h20]; exact noEOI_addToOpAndFlush _ _ _ _ (by simp) h
  rw [if_neg h20]
  by_cases h21 : c = 0x8B
  · rw [if_pos h21]; exact noEOI_addToOp _ _ _ h
  rw [if_neg h21]
  by_cases h22 : c = 0x96
  · rw [if_pos h22]; exact noEOI_addToOp _ _ _ h
  rw [if_neg h22]
  by_cases h23 : c = 0xA1
  · rw [if_pos h23]; exact noEOI_addToOpAndFlush _ _ _ _ (by simp) h
  rw [if_neg h23]
  by_cases h24 : c = 0x3D
  · rw [if_pos h24]
    intro t ht
    rcases List.mem_append.1 ht with hl | hl
    · exact noEOI_flushBuffers st .ILLEGAL (by simp) h t hl
    · simp only [List.mem_singleton] at hl
      subst hl
      simp
  rw [if_neg h24]
  by_cases h25 : isValidIdentifierSymbol c
  · rw [if_pos h25]; exact h
  rw [if_neg h25]
  intro t ht
  rcases List.mem_append.1 ht with hl | hl
  · exact h t hl
  · simp only [List.mem_singleton] at hl
    subst hl
    simp

theorem noEOI_foldl (bs : List Nat) :
    ∀ st : LexState, noEOI st.list → noEOI (bs.foldl lexStep st).list := by
  induction bs with
  | nil => intro st h; exact h
  | cons c cs ih =>
    intro st h
    exact ih _ (noEOI_lexStep _ _ h)

/-- C1: for every input byte string, `lex` (a total function) returns a
non-empty token sequence that ends in the `EOI` token, and no `EOI` token
occurs anywhere except that final position — so exactly one `EOI` appears. -/
theorem lex_nonempty_unique_trailing_EOI (bs : List Nat) :
    ∃ ts, lex bs = ts ++ [eoiToken] ∧ noEOI ts := by
  refine ⟨(flushBuffers (bs.foldl lexStep ⟨[], [], []⟩) .ILLEGAL).list, rfl, ?_⟩
  exact noEOI_flushBuffers _ _ (by simp) (noEOI_foldl bs ⟨[], [], []⟩ (by intro t ht; simp at ht))

/-- C2: for every symbol of the §6 table, lexing exactly its canonical UTF-8
byte sequence yields exactly one token of the matching kind followed only by
the terminal `EOI`; and for every truncation (proper non-empty leading
segment) and every reordering (non-identity permutation) of a multi-byte
symbol's bytes, `lex` yields at least one `ILLEGAL` token and no token of
any operator/symbol kind (every token is `ILLEGAL` or the terminal `EOI`). -/
theorem symbol_roundtrip_and_no_false_match :
    (symbolTable.all (fun s => decide (lex s.1 = [⟨s.1, s.2⟩, eoiToken])) = true) ∧
    (multiByteSymbols.all (fun s =>
       (truncations s.1 ++ reorderings s.1).all
         (fun arr => onlyIllegalOrEOI (lex arr) && hasIllegal (lex arr))) = true) := by
  exact ⟨by decide, by decide⟩

/-! ## The variable DFA (C3) -/

theorem dfa0_xyz (c : Nat) (h : c = 0x78 ∨ c = 0x79 ∨ c = 0x7A) :
    variable_dfa 0 c = some 1 := by
  unfold variable_dfa
  split_ifs
  all_goals first | rfl | omega | simp_all

theorem dfa0_no (c : Nat) (h : ¬ (c = 0x78 ∨ c = 0x79 ∨ c = 0x7A)) :
    variable_dfa 0 c = none := by
  unfold variable_dfa
  split_ifs
  all_goals first | rfl | omega | simp_all

theorem dfa1_underscore : variable_dfa 1 0x5F = some 2 := by decide

theorem dfa1_digit (c : Nat) (h : isSpecDigit c) : variable_dfa 1 c = some 3 := by
  unfold variable_dfa
  unfold isSpecDigit at h
  split_ifs
  all_goals first | rfl | omega | simp_all

theorem dfa1_no (c : Nat) (h1 : c ≠ 0x5F) (h2 : ¬ isSpecDigit c) :
    variable_dfa 1 c = none := by
  unfold variable_dfa
  unfold isSpecDigit at h2
  split_ifs
  all_goals first | rfl | omega | simp_all

theorem dfa2_digit (c : Nat) (h : isSpecDigit c) : variable_dfa 2 c = some 3 := by
  unfold variable_dfa
  unfold isSpecDigit at h
  split_ifs
  all_goals first | rfl | omega | simp_all

theorem dfa2_no (c : Nat) (h : ¬ isSpecDigit c) : variable_dfa 2 c = none := by
  unfold variable_dfa
  unfold isSpecDigit at h
  split_ifs
  all_goals first | rfl | omega | simp_all

theorem dfa3_digit (c : Nat) (h : isSpecDigit c) : variable_dfa 3 c = some 3 := by
  unfold variable_dfa
  unfold isSpecDigit at h
  split_ifs
  all_goals first | rfl | omega | simp_all

theorem dfa3_no (c : Nat) (h : ¬ isSpecDigit c) : variable_dfa 3 c = none := by
  unfold variable_dfa
  unfold isSpecDigit at h
  split_ifs
  all_goals first | rfl | omega | simp_all

theorem isVariableGo_state3 (ds : List Nat) :
    isVariableGo 3 ds = true ↔ ∀ c ∈ ds, isSpecDigit c := by
  induction ds with
  | nil => simp [isVariableGo]
  | cons c cs ih =>
    by_cases hd : isSpecDigit c
    · simp [isVariableGo, dfa3_digit c hd, ih, hd]
    · simp [isVariableGo, dfa3_no c hd, hd]

theorem isVariableGo_state2 (ds : List Nat) :
    isVariableGo 2 ds = true ↔ (ds ≠ [] ∧ ∀ c ∈ ds, isSpecDigit c) := by
  cases ds with
  | nil => simp [isVariableGo]
  | cons c cs =>
    by_cases hd : isSpecDigit c
    · simp [isVariableGo, dfa2_digit c hd, isVariableGo_state3, hd]
    · simp [isVariableGo, dfa2_no c hd, hd]

theorem isVariableGo_state1 (rest : List Nat) :
    isVariableGo 1 rest = true ↔
      (rest = [] ∨
       (rest ≠ [] ∧ ∀ c ∈ rest, isSpecDigit c) ∨
       (∃ ds, rest = 0x5F :: ds ∧ ds ≠ [] ∧ ∀ c ∈ ds, isSpecDigit c)) := by
  cases rest with
  | nil => simp [isVariableGo]
  | cons c cs =>
    by_cases hu : c = 0x5F
    · subst hu
      have hnd : ¬ isSpecDigit 0x5F := by norm_num [isSpecDigit]
      simp only [isVariableGo, dfa1_underscore, isVariableGo_state2]
      constructor
      · rintro ⟨hne, hall⟩
        exact Or.inr (Or.inr ⟨cs, rfl, hne, hall⟩)
      · rintro (h | ⟨hne, hall⟩ | ⟨ds, hds, hne, hall⟩)
        · exact absurd h (by simp)
        · exact absurd (hall 0x5F (by simp)) hnd
        · obtain rfl : cs = ds := by injection hds
          exact ⟨hne, hall⟩
    · by_cases hd : isSpecDigit c
      · simp only [isVariableGo, dfa1_digit c hd, isVariableGo_state3]
        constructor
        · intro hall
          refine Or.inr (Or.inl ⟨by simp, ?_⟩)
          intro x hx
          rcases List.mem_cons.1 hx with rfl | hx
          · exact hd
          · exact hall x hx
        · rintro (h | ⟨hne, hall⟩ | ⟨ds, hds, hne, hall⟩)
          · exact absurd h (by simp)
          · intro x hx; exact hall x (List.mem_cons_of_mem _ hx)
          · exact absurd (by injection hds) hu
      · simp only [isVariableGo, dfa1_no c hu hd]
        constructor
        · intro h; exact absurd h (by simp)
        · rintro (h | ⟨hne, hall⟩ | ⟨ds, hds, hne, hall⟩)
          · exact absurd h (by simp)
          · exact absurd (hall c (by simp)) hd
          · exact absurd (by injection hds) hu

theorem isVariable_iff_specVariable (s : List Nat) :
    isVariable s = true ↔ specVariable s := by
  cases s with
  | nil =>
    simp [isVariable, isVariableGo, specVariable]
  | cons c cs =>
    by_cases hx : c = 0x78 ∨ c = 0x79 ∨ c = 0x7A
    · simp only [isVariable, isVariableGo, dfa0_xyz c hx, isVariableGo_state1, specVariable]
      constructor
      · intro h
        exact ⟨c, cs, rfl, hx, h⟩
      · rintro ⟨h, rest, heq, hh, hr⟩
        obtain ⟨rfl, rfl⟩ : c = h ∧ cs = rest := by
          refine ⟨?_, ?_⟩ <;> injection heq
        exact hr
    · simp only [isVariable, isVariableGo, dfa0_no c hx, specVariable]
      constructor
      · intro h; exact absurd h (by simp)
      · rintro ⟨h, rest, heq, hh, hr⟩
        obtain ⟨rfl, rfl⟩ : c = h ∧ cs = rest := by
          refine ⟨?_, ?_⟩ <;> injection heq
        exact absurd hh hx

/-- C3: an identifier run flushed by the lexer is classified `VARIABLE` iff
it matches the spec's variable grammar (`x|y|z`, or `x|y|z` + digits, or
`x|y|z` + `_` + digits), and `IDENTIFIER` otherwise; a non-empty pending run
is flushed as a token of exactly that classification; and on the README
examples: `x`, `y_1`, `z2` lex as `VARIABLE` while `x_`, `y__2`, `zz2` lex
as `IDENTIFIER`. -/
theorem identifier_run_classification :
    (∀ s : List Nat, isVariable s = true ↔ specVariable s) ∧
    (∀ st : LexState, st.identifier ≠ [] →
       (writeIdent st).list = st.list ++
         [⟨st.identifier, if isVariable st.identifier then .VARIABLE else .IDENTIFIER⟩]) ∧
    lex [0x78] = [⟨[0x78], .VARIABLE⟩, eoiToken] ∧
    lex [0x79, 0x5F, 0x31] = [⟨[0x79, 0x5F, 0x31], .VARIABLE⟩, eoiToken] ∧
    lex [0x7A, 0x32] = [⟨[0x7A, 0x32], .VARIABLE⟩, eoiToken] ∧
    lex [0x78, 0x5F] = [⟨[0x78, 0x5F], .IDENTIFIER⟩, eoiToken] ∧
    lex [0x79, 0x5F, 0x5F, 0x32] = [⟨[0x79, 0x5F, 0x5F, 0x32], .IDENTIFIER⟩, eoiToken] ∧
    lex [0x7A, 0x7A, 0x32] = [⟨[0x7A, 0x7A, 0x32], .IDENTIFIER⟩, eoiToken] := by
  refine ⟨isVariable_iff_specVariable, ?_, by decide, by decide, by decide, by decide,
    by decide, by decide⟩
  intro st hne
  unfold writeIdent
  rw [if_neg hne]

/-- Witness for C3 at a concrete flush: the pending run `zz2` is non-empty
and is flushed as an `IDENTIFIER` token. -/
theorem identifier_run_classification_witness :
    (writeIdent ⟨[], [0x7A, 0x7A, 0x32], []⟩).list =
      [] ++ [⟨[0x7A, 0x7A, 0x32],
              if isVariable [0x7A, 0x7A, 0x32] then .VARIABLE else .IDENTIFIER⟩] :=
  identifier_run_classification.2.1 ⟨[], [0x7A, 0x7A, 0x32], []⟩ (by decide)

/-- C10: when the lexer meets one of the recognized continuation bytes while
the pending operator-byte buffer is empty, it emits no token and leaves the
scan state unchanged (the byte is silently discarded); in particular `lex`
of the single byte `0xAC` is just the `EOI` token; and when the buffer is
non-empty but its last byte is not the expected predecessor, the buffer is
flushed as one `ILLEGAL` token while the current byte itself is discarded. -/
theorem addToOp_mismatch (st : LexState) (curr prev last : Nat)
    (hl : st.operator_byte_array.getLast? = some last) (hne : last ≠ prev) :
    addToOp st curr prev = writeOp st .ILLEGAL := by
  unfold addToOp
  rw [hl, if_neg]
  simp [hne]

theorem addToOpAndFlush_mismatch (st : LexState) (curr prev last : Nat) (ty : TokenType)
    (hl : st.operator_byte_array.getLast? = some last) (hne : last ≠ prev) :
    addToOpAndFlush st curr prev ty = writeOp st .ILLEGAL := by
  unfold addToOpAndFlush
  rw [hl, if_neg]
  simp [hne]

theorem writeOp_nonempty (list : List Token) (id buf : List Nat) (ty : TokenType)
    (hbne : buf ≠ []) :
    writeOp ⟨list, id, buf⟩ ty = ⟨list ++ [⟨buf, ty⟩], id, []⟩ := by
  unfold writeOp
  rw [if_neg hbne]

theorem continuation_byte_discard :
    (∀ c ∈ continuationBytes, ∀ list id,
       lexStep ⟨list, id, []⟩ c = ⟨list, id, []⟩) ∧
    lex [0xAC] = [eoiToken] ∧
    (∀ c ∈ continuationBytes, ∀ list id buf last,
       buf.getLast? = some last → last ∉ expectedPrev c →
       lexStep ⟨list, id, buf⟩ c = ⟨list ++ [⟨buf, .ILLEGAL⟩], id, []⟩) := by
  refine ⟨?_, by decide, ?_⟩
  · intro c hc list id
    fin_cases hc <;>
      simp [lexStep, addToOp, addToOpAndFlush, writeOp]
  · intro c hc list id buf last hlast hne
    have hbne : buf ≠ [] := by
      intro h; subst h; simp at hlast
    fin_cases hc <;> norm_num [expectedPrev] at hne <;>
      first
      | (simp only [lexStep]
         norm_num
         rw [addToOpAndFlush_mismatch _ _ _ _ _ hlast hne, writeOp_nonempty _ _ _ _ hbne])
      | (simp only [lexStep]
         norm_num
         rw [addToOp_mismatch _ _ _ _ hlast hne, writeOp_nonempty _ _ _ _ hbne])
      | (simp only [lexStep]
         norm_num
         rw [hlast]
         split
         · rename_i heq
           injection heq with heq
           omega
         · rename_i heq
           injection heq with heq
           omega
         · exact writeOp_nonempty _ _ _ _ hbne)

/-- Witness for C10: the mismatch branch at the concrete input `0x92` (third
byte of `→`) with buffer `[0xE2]` (whose last byte `0xE2` is not the
expected `0x86`): the buffer is flushed as `ILLEGAL`. -/
theorem continuation_byte_discard_witness :
    lexStep ⟨[], [], [0xE2]⟩ 0x92 = ⟨[] ++ [⟨[0xE2], .ILLEGAL⟩], [], []⟩ :=
  continuation_byte_discard.2.2 0x92 (by decide) [] [] [0xE2] 0xE2 (by decide) (by decide)

/-! ## Parser lemmas -/

/-- The token kind at the cursor position according to the token list (the
value `m_LookAhead` holds whenever it has been computed by the parser's own
code paths). -/
def lookAt (st : PState) : TokenType :=
  if st.index < st.tokens.length then (st.tokens.getD st.index defaultToken).type
  else .EOI

theorem run_succ (n : Nat) (c : Call) (st : PState) :
    run (n + 1) c st = runStep (run n) c st := rfl

theorem run_zero (c : Call) (st : PState) : run 0 c st = .fuelOut := rfl

/-- The parser never changes its token list, operator mapping or entry rule. -/
def Pres (st st2 : PState) : Prop :=
  st2.tokens = st.tokens ∧ st2.map = st.map ∧ st2.entry = st.entry

/-- `Pres` between a state and the out-state of a parser outcome. -/
def presOut (st : PState) : POut → Prop
  | .ok _ st2 => Pres st st2
  | .err _ st2 => Pres st st2
  | .fuelOut => True

theorem pres_refl (st : PState) : Pres st st := ⟨rfl, rfl, rfl⟩

theorem pres_trans {a b c : PState} (h1 : Pres a b) (h2 : Pres b c) : Pres a c :=
  ⟨h2.1.trans h1.1, h2.2.1.trans h1.2.1, h2.2.2.trans h1.2.2⟩

theorem advance_tokens (st : PState) : st.advance.tokens = st.tokens := by
  unfold PState.advance
  split <;> rfl

theorem advance_map (st : PState) : st.advance.map = st.map := by
  unfold PState.advance
  split <;> rfl

theorem advance_entry (st : PState) : st.advance.entry = st.entry := by
  unfold PState.advance
  split <;> rfl

theorem pres_advance (st : PState) : Pres st st.advance :=
  ⟨advance_tokens st, advance_map st, advance_entry st⟩

theorem presOut_mono {st st1 : PState} {out : POut} (h1 : Pres st st1)
    (h2 : presOut st1 out) : presOut st out := by
  cases out with
  | ok e st2 => exact pres_trans h1 h2
  | err m st2 => exact pres_trans h1 h2
  | fuelOut => trivial

/-- Every parser rule and loop preserves the token list, the operator
mapping and the entry rule of the state. -/
theorem run_pres (n : Nat) : ∀ (c : Call) (st : PState), presOut st (run n c st) := by
  induction n with
  | zero =>
    intro c st
    exact trivial
  | succ m ih =>
    intro c st
    rw [run_succ]
    cases c with
    | rule r =>
      cases r with
      | equivalence =>
        simp only [runStep]
        cases h1 : run m (.rule .implication) st with
        | fuelOut => exact trivial
        | err msg st1 =>
          have := ih (.rule .implication) st
          rw [h1] at this
          exact this
        | ok lhs st1 =>
          have p1 : Pres st st1 := by
            have := ih (.rule .implication) st
            rw [h1] at this
            exact this
          exact presOut_mono p1 (ih (.eqLoop lhs) st1)
      | implication =>
        simp only [runStep]
        cases h1 : run m (.rule .conjunction_disjunction) st with
        | fuelOut => exact trivial
        | err msg st1 =>
          have := ih (.rule .conjunction_disjunction) st
          rw [h1] at this
          exact this
        | ok lhs st1 =>
          have p1 : Pres st st1 := by
            have := ih (.rule .conjunction_disjunction) st
            rw [h1] at this
            exact this
          exact presOut_mono p1 (ih (.impLoop lhs) st1)
      | conjunction_disjunction =>
        simp only [runStep]
        cases h1 : run m (.rule .clause) st with
        | fuelOut => exact trivial
        | err msg st1 =>
          have := ih (.rule .clause) st
          rw [h1] at this
          exact this
        | ok lhs st1 =>
          have p1 : Pres st st1 := by
            have := ih (.rule .clause) st
            rw [h1] at this
            exact this
          exact presOut_mono p1 (ih (.cdLoop lhs) st1)
      | clause =>
        simp only [runStep]
        split
        · exact ih (.rule .atomic) st
        split
        · exact ih (.rule .unary) st
        split
        · exact ih (.rule .quantificational) st
        split
        · -- LPAREN
          cases h1 : run m (.rule st.entry) st.advance with
          | fuelOut => exact trivial
          | err msg st2 =>
            have := ih (.rule st.entry) st.advance
            rw [h1] at this
            exact pres_trans (pres_advance st) this
          | ok e st2 =>
            have p1 : Pres st st2 := by
              have := ih (.rule st.entry) st.advance
              rw [h1] at this
              exact pres_trans (pres_advance st) this
            dsimp only
            split
            · exact p1
            · exact pres_trans p1 (pres_advance st2)
        split
        · -- LBRACKET
          cases h1 : run m (.rule st.entry) st.advance with
          | fuelOut => exact trivial
          | err msg st2 =>
            have := ih (.rule st.entry) st.advance
            rw [h1] at this
            exact pres_trans (pres_advance st) this
          | ok e st2 =>
            have p1 : Pres st st2 := by
              have := ih (.rule st.entry) st.advance
              rw [h1] at this
              exact pres_trans (pres_advance st) this
            dsimp only
            split
            · exact p1
            · exact pres_trans p1 (pres_advance st2)
        exact pres_refl st
      | quantificational =>
        simp only [runStep]
        split
        · exact pres_refl st
        split
        · exact pres_refl st
        cases h1 : run m (.rule .clause) st.advance.advance with
        | fuelOut => exact trivial
        | err msg st3 =>
          have := ih (.rule .clause) st.advance.advance
          rw [h1] at this
          exact pres_trans (pres_trans (pres_advance st) (pres_advance st.advance)) this
        | ok scope st3 =>
          have p1 : Pres st st3 := by
            have := ih (.rule .clause) st.advance.advance
            rw [h1] at this
            exact pres_trans (pres_trans (pres_advance st) (pres_advance st.advance)) this
          dsimp only
          split
          · cases hm : st.map .NOT with
            | some op => exact p1
            | none => exact p1
          · exact p1
      | unary =>
        simp only [runStep]
        split
        · exact pres_refl st
        cases hop : (if (st.getToken st.index).type = .NOT then st.map .NOT
                     else if (st.getToken st.index).type = .POS then st.map .POS
                     else st.map .NEC) with
        | none => exact pres_refl st
        | some op =>
          cases h1 : run m (.rule .clause) st.advance with
          | fuelOut => exact trivial
          | err msg st2 =>
            have := ih (.rule .clause) st.advance
            rw [h1] at this
            exact pres_trans (pres_advance st) this
          | ok e st2 =>
            have := ih (.rule .clause) st.advance
            rw [h1] at this
            exact pres_trans (pres_advance st) this
      | atomic =>
        simp only [runStep]
        split
        · exact pres_refl st
        split
        · exact ih (.rule .predication) st
        split
        · exact ih (.rule .identity) st
        split
        · exact ih (.rule .inequality) st
        exact pres_refl st
      | predication =>
        simp only [runStep]
        split
        · exact pres_refl st
        split
        · exact pres_refl st
        split
        · exact pres_refl st
        split
        · exact pres_refl st
        exact presOut_mono
          (pres_trans (pres_trans (pres_advance st) (pres_advance st.advance))
            (pres_advance st.advance.advance))
          (ih (.predLoop st.index (st.tokens.getD st.index defaultToken).literal _)
            st.advance.advance.advance)
      | identity =>
        simp only [runStep]
        split
        · exact pres_refl st
        split
        · exact pres_refl st
        split
        · exact pres_refl st
        exact pres_trans (pres_trans (pres_advance st) (pres_advance st.advance))
          (pres_advance st.advance.advance)
      | inequality =>
        simp only [runStep]
        split
        · exact pres_refl st
        split
        · exact pres_refl st
        split
        · exact pres_refl st
        cases st.map .NOT with
        | some op =>
          exact pres_trans (pres_trans (pres_advance st) (pres_advance st.advance))
            (pres_advance st.advance.advance)
        | none =>
          exact pres_trans (pres_trans (pres_advance st) (pres_advance st.advance))
            (pres_advance st.advance.advance)
    | eqLoop lhs =>
      simp only [runStep]
      split
      · cases h1 : run m (.rule .implication) st.advance with
        | fuelOut => exact trivial
        | err msg st2 =>
          have := ih (.rule .implication) st.advance
          rw [h1] at this
          exact pres_trans (pres_advance st) this
        | ok rhs st2 =>
          have p1 : Pres st st2 := by
            have := ih (.rule .implication) st.advance
            rw [h1] at this
            exact pres_trans (pres_advance st) this
          cases st.map .EQ with
          | some op => exact presOut_mono p1 (ih (.eqLoop (.binary op lhs rhs)) st2)
          | none => exact p1
      · exact pres_refl st
    | impLoop lhs =>
      simp only [runStep]
      split
      · cases h1 : run m (.rule .conjunction_disjunction) st.advance with
        | fuelOut => exact trivial
        | err msg st2 =>
          have := ih (.rule .conjunction_disjunction) st.advance
          rw [h1] at this
          exact pres_trans (pres_advance st) this
        | ok rhs st2 =>
          have p1 : Pres st st2 := by
            have := ih (.rule .conjunction_disjunction) st.advance
            rw [h1] at this
            exact pres_trans (pres_advance st) this
          cases st.map .IF with
          | some op => exact presOut_mono p1 (ih (.impLoop (.binary op lhs rhs)) st2)
          | none => exact p1
      · exact pres_refl st
    | cdLoop lhs =>
      simp only [runStep]
      split
      · cases hop : (if (st.getToken st.index).type = .OR then st.map .OR else st.map .AND) with
        | none => exact pres_refl st
        | some op =>
          cases h1 : run m (.rule .clause) st.advance with
          | fuelOut => exact trivial
          | err msg st2 =>
            have := ih (.rule .clause) st.advance
            rw [h1] at this
            exact pres_trans (pres_advance st) this
          | ok rhs st2 =>
            have p1 : Pres st st2 := by
              have := ih (.rule .clause) st.advance
              rw [h1] at this
              exact pres_trans (pres_advance st) this
            exact presOut_mono p1 (ih (.cdLoop (.binary op lhs rhs)) st2)
      · exact pres_refl st
    | predLoop bp predicate arguments =>
      simp only [runStep]
      split
      · split
        · exact ⟨rfl, rfl, rfl⟩
        · exact presOut_mono (pres_trans (pres_advance st) (pres_advance st.advance))
            (ih (.predLoop bp predicate _) st.advance.advance)
      split
      · exact ⟨rfl, rfl, rfl⟩
      · exact pres_advance st

theorem sentence_pres (n : Nat) (st : PState) : presOut st (sentence n st) := by
  unfold sentence
  cases h1 : run n (.rule st.entry) st with
  | fuelOut => exact trivial
  | err msg st1 =>
    have := run_pres n (.rule st.entry) st
    rw [h1] at this
    exact this
  | ok e st1 =>
    have p1 : Pres st st1 := by
      have := run_pres n (.rule st.entry) st
      rw [h1] at this
      exact this
    dsimp only
    split
    · exact p1
    · exact p1

theorem parse_pres (n : Nat) (p : PState) (entry : Rule) :
    presOut ⟨0, .NIL, p.tokens, p.map, entry⟩ (Parser.parse n p entry) := by
  unfold Parser.parse
  split
  · exact ⟨rfl, rfl, rfl⟩
  · exact presOut_mono ⟨rfl, rfl, rfl⟩ (sentence_pres n _)

/-- Parsing depends only on the token list, the operator mapping and the
entry-rule argument: `Parser::parse` resets the cursor and lookahead at the
start of every call. -/
theorem parse_cursor_reset (n : Nat) (toks : List Token)
    (map : TokenType → Option Operator) (r : Rule) (i i2 : Nat) (l l2 : TokenType)
    (e0 e2 : Rule) :
    Parser.parse n ⟨i, l, toks, map, e0⟩ r = Parser.parse n ⟨i2, l2, toks, map, e2⟩ r := rfl

/-- C9: parsing the same token list with the same operator mapping and entry
rule yields identical results regardless of any pre-existing cursor state,
and a second `parse` call on the state left behind by a first call returns
the same result as the first call (each call resets the cursor). -/
theorem parse_deterministic_and_reusable (n : Nat) (toks : List Token)
    (map : TokenType → Option Operator) (r : Rule) (i i2 : Nat) (l l2 : TokenType)
    (e0 e2 : Rule) :
    Parser.parse n ⟨i, l, toks, map, e0⟩ r = Parser.parse n ⟨i2, l2, toks, map, e2⟩ r ∧
    Parser.parse n ((Parser.parse n ⟨i, l, toks, map, e0⟩ r).stateD ⟨i, l, toks, map, e0⟩) r =
      Parser.parse n ⟨i, l, toks, map, e0⟩ r := by
  refine ⟨rfl, ?_⟩
  have hp := parse_pres n ⟨i, l, toks, map, e0⟩ r
  cases h1 : Parser.parse n ⟨i, l, toks, map, e0⟩ r with
  | fuelOut => exact h1
  | ok e st2 =>
    rw [h1] at hp
    obtain ⟨ht, hm, he⟩ := hp
    show Parser.parse n st2 r = _
    calc Parser.parse n st2 r
        = Parser.parse n ⟨st2.index, st2.lookAhead, toks, map, st2.entry⟩ r := by
          rw [show st2 = ⟨st2.index, st2.lookAhead, st2.tokens, st2.map, st2.entry⟩ from rfl]
          rw [ht, hm]
      _ = Parser.parse n ⟨i, l, toks, map, e0⟩ r := parse_cursor_reset ..
      _ = .ok e st2 := h1
  | err msg st2 =>
    rw [h1] at hp
    obtain ⟨ht, hm, he⟩ := hp
    show Parser.parse n st2 r = _
    calc Parser.parse n st2 r
        = Parser.parse n ⟨st2.index, st2.lookAhead, toks, map, st2.entry⟩ r := by
          rw [show st2 = ⟨st2.index, st2.lookAhead, st2.tokens, st2.map, st2.entry⟩ from rfl]
          rw [ht, hm]
      _ = Parser.parse n ⟨i, l, toks, map, e0⟩ r := parse_cursor_reset ..
      _ = .err msg st2 := h1

/-- C5 counterexample: parsing the empty string through the convenience
`parse` (lex composed with `Parser::parse`) yields the syntax error
`Unexpected token (EOI)` — not the dedicated empty-input error — because
`lex ""` is `[EOI]`, a non-empty token list. -/
theorem empty_string_is_syntax_error :
    (parse 8 [] .equivalence mapToAlethicOperator).toResult =
      some (.error "Unexpected token (EOI)") ∧
    "Unexpected token (EOI)" ≠ "Empty input string, nothing to do" := by
  exact ⟨rfl, by decide⟩

/-- C5 amended: `Parser::parse` on a truly empty token vector (no tokens at
all, not even `EOI`) fails immediately with the dedicated empty-input
message before any grammar dispatch; but the convenience `parse` of the
empty string never reaches that branch, because `lex` appends `EOI` — it
returns the syntax error `Unexpected token (EOI)` instead. -/
theorem empty_input_behavior :
    (∀ (n i : Nat) (l : TokenType) (map : TokenType → Option Operator) (e0 entry : Rule),
       Parser.parse n ⟨i, l, [], map, e0⟩ entry =
         .err "Empty input string, nothing to do" ⟨0, .EOI, [], map, entry⟩) ∧
    (parse 8 [] .equivalence mapToAlethicOperator).toResult =
      some (.error "Unexpected token (EOI)") := by
  exact ⟨fun n i l map e0 entry => rfl, rfl⟩

/-! ## Predication rollback (C6) -/

/-- The argument loop of `predication` restores the cursor index and the
lookahead to the recorded backtracking point whenever it returns a syntax
error, and it never changes the token list. -/
theorem predLoop_err_restores (n : Nat) :
    ∀ (bp : Nat) (predicate : List Nat) (arguments : List Term) (st : PState)
      (msg : String) (st2 : PState),
      run n (.predLoop bp predicate arguments) st = .err msg st2 →
      st2.index = bp ∧ st2.lookAhead = (st.tokens.getD bp defaultToken).type ∧
        st2.tokens = st.tokens := by
  induction n with
  | zero =>
    intro bp predicate arguments st msg st2 h
    rw [run_zero] at h
    cases h
  | succ m ih =>
    intro bp predicate arguments st msg st2 h
    rw [run_succ] at h
    simp only [runStep] at h
    by_cases hc : st.peek 0 = .COMMA
    · rw [if_pos hc] at h
      by_cases ht : st.peek 1 ≠ .IDENTIFIER ∧ st.peek 1 ≠ .VARIABLE
      · rw [if_pos ht] at h
        injection h with hmsg hst
        subst hst
        exact ⟨rfl, rfl, rfl⟩
      · rw [if_neg ht] at h
        have := ih bp predicate _ st.advance.advance msg st2 h
        rw [advance_tokens, advance_tokens] at this
        exact this
    · rw [if_neg hc] at h
      by_cases hr : st.peek 0 ≠ .RPAREN
      · rw [if_pos hr] at h
        injection h with hmsg hst
        subst hst
        exact ⟨rfl, rfl, rfl⟩
      · rw [if_neg hr] at h
        cases h

/-- C6: once `predication` has committed (identifier, `(`, a valid first
term, and `,` or `)` after it, all checked by lookahead) and then fails with
a syntax error — a malformed argument after a comma, or a missing closing
`)` — the returned parser state has its cursor index and lookahead restored
to the recorded position at the start of the predication attempt, and the
token list is unchanged: no alternative production is retried from a
half-advanced cursor. -/
theorem predication_commit_rollback (n : Nat) (st : PState) (msg : String) (st2 : PState)
    (h0 : st.peek 0 = .IDENTIFIER) (h1 : st.peek 1 = .LPAREN)
    (h2 : isTerm (st.peek 2) = true) (h3 : st.peek 3 = .RPAREN ∨ st.peek 3 = .COMMA)
    (h : run n (.rule .predication) st = .err msg st2) :
    st2.index = st.index ∧
      st2.lookAhead = (st.tokens.getD st.index defaultToken).type ∧
      st2.tokens = st.tokens := by
  cases n with
  | zero =>
    rw [run_zero] at h
    cases h
  | succ m =>
    rw [run_succ] at h
    simp only [runStep] at h
    rw [if_neg (by simp [h0])] at h
    rw [if_neg (by simp [h1])] at h
    rw [if_neg (by simp [h2])] at h
    rw [if_neg (by rcases h3 with h3 | h3 <;> simp [h3])] at h
    have := predLoop_err_restores m st.index _ _ st.advance.advance.advance msg st2 h
    rw [advance_tokens, advance_tokens, advance_tokens] at this
    exact this

/-- The token list of the C6 witness: `P ( x , ) EOI`, which commits
predication (lookahead sees `P`, `(`, term `x`, then `,`) and then fails on
the malformed argument after the comma. -/
def c6Tokens : List Token :=
  [⟨[0x50], .IDENTIFIER⟩, ⟨[0x28], .LPAREN⟩, ⟨[0x78], .VARIABLE⟩, ⟨[0x2C], .COMMA⟩,
   ⟨[0x29], .RPAREN⟩, eoiToken]

/-- The parser state of the C6 witness, cursor at the start of `c6Tokens`. -/
def c6State : PState := ⟨0, .IDENTIFIER, c6Tokens, mapToAlethicOperator, .equivalence⟩

/-- Witness for C6: on `P ( x , ) EOI` predication commits, fails on the
argument after the comma, and the returned state has index 0 and lookahead
`IDENTIFIER` — the recorded pre-attempt position. -/
theorem predication_commit_rollback_witness :
    (c6State.peek 0 = .IDENTIFIER ∧ c6State.peek 1 = .LPAREN ∧
      isTerm (c6State.peek 2) = true ∧ c6State.peek 3 = .COMMA) ∧
    ((⟨0, .IDENTIFIER, c6Tokens, mapToAlethicOperator, .equivalence⟩ : PState).index =
        c6State.index ∧
      (⟨0, .IDENTIFIER, c6Tokens, mapToAlethicOperator, .equivalence⟩ : PState).lookAhead =
        (c6State.tokens.getD c6State.index defaultToken).type ∧
      (⟨0, .IDENTIFIER, c6Tokens, mapToAlethicOperator, .equivalence⟩ : PState).tokens =
        c6State.tokens) :=
  ⟨⟨by decide, by decide, by decide, by decide⟩,
    predication_commit_rollback 10 c6State "Expected term after ',' but got ')'"
      ⟨0, .IDENTIFIER, c6Tokens, mapToAlethicOperator, .equivalence⟩
      (by decide) (by decide) (by decide) (Or.inr (by decide)) rfl⟩

/-! ## NOT_EXISTS desugaring (C8) -/

theorem peek_mem (st : PState) (k : Nat) (ty : TokenType) (hty : ty ≠ .EOI)
    (h : st.peek k = ty) :
    st.index + k < st.tokens.length ∧
      (st.tokens.getD (st.index + k) defaultToken).type = ty := by
  unfold PState.peek at h
  split at h
  · exact ⟨by assumption, h⟩
  · exact absurd h.symm hty

/-- C8: when the parser is positioned on `∄ x` (a `NOT_EXISTS` token whose
lookahead is consistent, followed by a `VARIABLE` token) and the body parses
as a clause with value `φ`, `quantificational` returns
`Unary(¬, Quantification(Existential, x, φ))` when the operator mapping
supplies an operator for `NOT`, and the configuration error
`Non-existent map for token type NOT (¬)` when it does not. -/
theorem notexists_is_negated_exists (n : Nat) (st : PState) (φ : Expression) (st3 : PState)
    (hla : st.lookAhead = lookAt st)
    (h0 : st.peek 0 = .NOT_EXISTS) (h1 : st.peek 1 = .VARIABLE)
    (hcl : run n (.rule .clause) st.advance.advance = .ok φ st3) :
    run (n + 1) (.rule .quantificational) st =
      (match st.map .NOT with
       | some op =>
         .ok (.unary op (.quantification .EXISTENTIAL
           ⟨(st.tokens.getD (st.index + 1) defaultToken).literal, .VARIABLE⟩ φ)) st3
       | none => .err "Non-existent map for token type NOT (¬)" st3) := by
  rw [run_succ]
  simp only [runStep]
  rw [if_neg (by simp [h0])]
  rw [if_neg (by simp [h1])]
  have hmem0 := peek_mem st 0 .NOT_EXISTS (by simp) h0
  rw [Nat.add_zero] at hmem0
  have hq : (st.tokens.getD st.index defaultToken).type = .NOT_EXISTS := hmem0.2
  rw [hq]
  have hadv1 : st.advance.tokens = st.tokens := advance_tokens st
  have hidx1 : st.advance.index = st.index + 1 := by
    unfold PState.advance
    rw [if_pos]
    rw [hla]
    unfold lookAt
    rw [if_pos hmem0.1, hq]
    simp
  rw [hcl]
  dsimp only
  rw [if_pos rfl, hadv1, hidx1, if_neg (by decide)]

/-- The token list of the C8 witness: `lex "∄x P(x)"`. -/
def c8Tokens : List Token :=
  [⟨[0xE2, 0x88, 0x84], .NOT_EXISTS⟩, ⟨[0x78], .VARIABLE⟩, ⟨[0x50], .IDENTIFIER⟩,
   ⟨[0x28], .LPAREN⟩, ⟨[0x78], .VARIABLE⟩, ⟨[0x29], .RPAREN⟩, eoiToken]

/-- The parser state of the C8 witness. -/
def c8State : PState := ⟨0, .NOT_EXISTS, c8Tokens, mapToAlethicOperator, .equivalence⟩

/-- Witness for C8 at `∄x P(x)` with the alethic mapping: the result is
`Unary(NEGATION, Quantification(Existential, x, P(x)))`. -/
theorem notexists_is_negated_exists_witness :
    run 13 (.rule .quantificational) c8State =
      (match c8State.map .NOT with
       | some op =>
         .ok (.unary op (.quantification .EXISTENTIAL
           ⟨(c8State.tokens.getD (c8State.index + 1) defaultToken).literal, .VARIABLE⟩
           (.predication [0x50] [⟨[0x78], .VARIABLE⟩])))
         ⟨6, .EOI, c8Tokens, mapToAlethicOperator, .equivalence⟩
       | none => .err "Non-existent map for token type NOT (¬)"
           ⟨6, .EOI, c8Tokens, mapToAlethicOperator, .equivalence⟩) :=
  notexists_is_negated_exists 12 c8State (.predication [0x50] [⟨[0x78], .VARIABLE⟩])
    ⟨6, .EOI, c8Tokens, mapToAlethicOperator, .equivalence⟩
    (by decide) (by decide) (by decide) rfl

/-! ## Divergence of the parser on a token list without a final EOI (C7)

`Parser::getToken` clamps out-of-range access to the LAST token.  On the
token list `[LPAREN]` the cursor moves past the end, `clause` keeps reading
the clamped `LPAREN`, `advance` is a no-op (the lookahead is already `EOI`),
and `clause` recurses into the entry rule with an unchanged state: the C++
recursion never returns.  In the step-indexed model, every fuel yields
`fuelOut`. -/

/-- The state in which the recursion of `clause` on `[LPAREN]` is stuck:
cursor past the end, lookahead `EOI`, clamped current token `LPAREN`. -/
def c7StuckState : PState :=
  ⟨1, .EOI, [⟨[0x28], .LPAREN⟩], mapToAlethicOperator, .equivalence⟩

/-- The initial cursor state on the token list `[LPAREN]`. -/
def c7StartState : PState :=
  ⟨0, .LPAREN, [⟨[0x28], .LPAREN⟩], mapToAlethicOperator, .equivalence⟩

theorem c7_stuck_cycle : ∀ n,
    run n (.rule .equivalence) c7StuckState = .fuelOut ∧
    run n (.rule .implication) c7StuckState = .fuelOut ∧
    run n (.rule .conjunction_disjunction) c7StuckState = .fuelOut ∧
    run n (.rule .clause) c7StuckState = .fuelOut := by
  intro n
  induction n with
  | zero => exact ⟨rfl, rfl, rfl, rfl⟩
  | succ m ih =>
    obtain ⟨he, hi, hc, hcl⟩ := ih
    refine ⟨?_, ?_, ?_, ?_⟩
    · rw [run_succ]
      have hbody : runStep (run m) (.rule .equivalence) c7StuckState =
          (match run m (.rule .implication) c7StuckState with
           | .fuelOut => .fuelOut
           | .err ms s => .err ms s
           | .ok lhs s => run m (.eqLoop lhs) s) := rfl
      rw [hbody, hi]
    · rw [run_succ]
      have hbody : runStep (run m) (.rule .implication) c7StuckState =
          (match run m (.rule .conjunction_disjunction) c7StuckState with
           | .fuelOut => .fuelOut
           | .err ms s => .err ms s
           | .ok lhs s => run m (.impLoop lhs) s) := rfl
      rw [hbody, hc]
    · rw [run_succ]
      have hbody : runStep (run m) (.rule .conjunction_disjunction) c7StuckState =
          (match run m (.rule .clause) c7StuckState with
           | .fuelOut => .fuelOut
           | .err ms s => .err ms s
           | .ok lhs s => run m (.cdLoop lhs) s) := rfl
      rw [hbody, hcl]
    · rw [run_succ]
      have hbody : runStep (run m) (.rule .clause) c7StuckState =
          (match run m (.rule c7StuckState.entry) c7StuckState.advance with
           | .fuelOut => .fuelOut
           | .err ms s => .err ms s
           | .ok e s =>
             if s.peek 0 ≠ .RPAREN then
               .err ("Expected ')' after '"
                     ++ litStr (c7StuckState.getToken c7StuckState.index).literal
                     ++ "' but got '" ++ litStr (s.getToken s.index).literal ++ "'") s
             else .ok e s.advance) := rfl
      rw [hbody]
      rw [show c7StuckState.advance = c7StuckState from rfl]
      rw [show c7StuckState.entry = Rule.equivalence from rfl]
      rw [he]

theorem c7_start_clause : ∀ n, run n (.rule .clause) c7StartState = .fuelOut := by
  intro n
  cases n with
  | zero => rfl
  | succ m =>
    rw [run_succ]
    have hbody : runStep (run m) (.rule .clause) c7StartState =
        (match run m (.rule c7StartState.entry) c7StartState.advance with
         | .fuelOut => .fuelOut
         | .err ms s => .err ms s
         | .ok e s =>
           if s.peek 0 ≠ .RPAREN then
             .err ("Expected ')' after '"
                   ++ litStr (c7StartState.getToken c7StartState.index).literal
                   ++ "' but got '" ++ litStr (s.getToken s.index).literal ++ "'") s
           else .ok e s.advance) := rfl
    rw [hbody]
    rw [show c7StartState.advance = c7StuckState from rfl]
    rw [show c7StartState.entry = Rule.equivalence from rfl]
    rw [(c7_stuck_cycle m).1]

theorem c7_start_cd : ∀ n, run n (.rule .conjunction_disjunction) c7StartState = .fuelOut := by
  intro n
  cases n with
  | zero => rfl
  | succ m =>
    rw [run_succ]
    have hbody : runStep (run m) (.rule .conjunction_disjunction) c7StartState =
        (match run m (.rule .clause) c7StartState with
         | .fuelOut => .fuelOut
         | .err ms s => .err ms s
         | .ok lhs s => run m (.cdLoop lhs) s) := rfl
    rw [hbody, c7_start_clause m]

theorem c7_start_imp : ∀ n, run n (.rule .implication) c7StartState = .fuelOut := by
  intro n
  cases n with
  | zero => rfl
  | succ m =>
    rw [run_succ]
    have hbody : runStep (run m) (.rule .implication) c7StartState =
        (match run m (.rule .conjunction_disjunction) c7StartState with
         | .fuelOut => .fuelOut
         | .err ms s => .err ms s
         | .ok lhs s => run m (.impLoop lhs) s) := rfl
    rw [hbody, c7_start_cd m]

theorem c7_start_equiv : ∀ n, run n (.rule .equivalence) c7StartState = .fuelOut := by
  intro n
  cases n with
  | zero => rfl
  | succ m =>
    rw [run_succ]
    have hbody : runStep (run m) (.rule .equivalence) c7StartState =
        (match run m (.rule .implication) c7StartState with
         | .fuelOut => .fuelOut
         | .err ms s => .err ms s
         | .ok lhs s => run m (.eqLoop lhs) s) := rfl
    rw [hbody, c7_start_imp m]

/-- C7 counterexample: on the token list `[LPAREN]` — a perfectly finite
token sequence, merely lacking the final `EOI` — `Parser::parse` with the
default entry rule and mapping never returns: in the step-indexed model, no
amount of fuel yields a result.  (The C++ recursion `clause → entry rule →
… → clause` repeats with an unchanged cursor because `getToken` clamps to
the last token, `LPAREN`, while `advance` is a no-op at `EOI` lookahead.) -/
theorem parse_diverges_on_missing_EOI :
    ¬ ∃ n, Parser.parse n ⟨0, .NIL, [⟨[0x28], .LPAREN⟩], mapToAlethicOperator, .equivalence⟩
        .equivalence ≠ .fuelOut := by
  rintro ⟨n, hne⟩
  apply hne
  show sentence n c7StartState = .fuelOut
  unfold sentence
  rw [show c7StartState.entry = Rule.equivalence from rfl, c7_start_equiv n]

end QMLParser

namespace QMLParser

/-! ## Fuel sufficiency on EOI-terminated token lists (C7, amended) -/

/-- A well-formed parser state: cursor within bounds, lookahead consistent
with the cursor, and a non-empty token list whose last token is `EOI`. -/
def Good (st : PState) : Prop :=
  st.index ≤ st.tokens.length ∧ st.lookAhead = lookAt st ∧
    st.tokens ≠ [] ∧ (st.tokens.getD (st.tokens.length - 1) defaultToken).type = .EOI

/-- Fuel-accounting rank of a call: strictly decreasing along the recursive
calls that do not consume a token. -/
def rank : Call → Nat
  | .rule .predication => 0
  | .rule .identity => 0
  | .rule .inequality => 0
  | .predLoop _ _ _ => 0
  | .rule .atomic => 1
  | .rule .unary => 1
  | .rule .quantificational => 1
  | .rule .clause => 2
  | .rule .conjunction_disjunction => 3
  | .cdLoop _ => 3
  | .rule .implication => 4
  | .impLoop _ => 4
  | .rule .equivalence => 5
  | .eqLoop _ => 5

/-- Standard outcome contract: never out of fuel; the out-state is good,
shares the immutable components, and the cursor moved forward (strictly by
`strict` on success). -/
def SpecStd (strict : Nat) (st : PState) : POut → Prop
  | .fuelOut => False
  | .ok _ st2 => Good st2 ∧ Pres st st2 ∧ st.index + strict ≤ st2.index
  | .err _ st2 => Good st2 ∧ Pres st st2 ∧ st.index ≤ st2.index

/-- Outcome contract of the predication argument loop: on error the cursor
is restored to the backtracking point. -/
def SpecPred (bp : Nat) (st : PState) : POut → Prop
  | .fuelOut => False
  | .ok _ st2 => Good st2 ∧ Pres st st2 ∧ st.index ≤ st2.index
  | .err _ st2 =>
      Pres st st2 ∧ st2.index = bp ∧
        st2.lookAhead = (st.tokens.getD bp defaultToken).type

/-- The outcome contract of each call kind. -/
def Spec : Call → PState → POut → Prop
  | .predLoop bp _ _ => SpecPred bp
  | .rule _ => SpecStd 1
  | .eqLoop _ => SpecStd 0
  | .impLoop _ => SpecStd 0
  | .cdLoop _ => SpecStd 0

theorem lookAt_eq_peek (st : PState) : st.peek 0 = lookAt st := by
  unfold PState.peek lookAt
  rw [Nat.add_zero]

theorem look_peek {st : PState} (hG : Good st) : st.lookAhead = st.peek 0 :=
  hG.2.1.trans (lookAt_eq_peek st).symm

theorem advance_good {st : PState} (hG : Good st) : Good st.advance := by
  unfold PState.advance
  split
  · refine ⟨?_, rfl, hG.2.2.1, hG.2.2.2⟩
    have hlt : st.index < st.tokens.length := by
      by_contra hge
      have : lookAt st = .EOI := by
        unfold lookAt
        rw [if_neg hge]
      exact ‹st.lookAhead ≠ .EOI› (hG.2.1.trans this)
    show st.index + 1 ≤ st.tokens.length
    omega
  · exact hG

theorem advance_move {st : PState} (hG : Good st) (h : st.lookAhead ≠ .EOI) :
    st.advance.index = st.index + 1 ∧ st.index < st.tokens.length := by
  have hlt : st.index < st.tokens.length := by
    by_contra hge
    have : lookAt st = .EOI := by
      unfold lookAt
      rw [if_neg hge]
    exact h (hG.2.1.trans this)
  constructor
  · unfold PState.advance
    rw [if_pos h]
  · exact hlt

theorem advance_le (st : PState) : st.index ≤ st.advance.index := by
  unfold PState.advance
  split <;> simp

theorem getToken_eoi_of_oob {st : PState} (hG : Good st)
    (h : st.tokens.length ≤ st.index) : (st.getToken st.index).type = .EOI := by
  unfold PState.getToken
  rw [if_neg (by omega)]
  exact hG.2.2.2

theorem getToken_inb {st : PState} (h : st.index < st.tokens.length) :
    st.getToken st.index = st.tokens.getD st.index defaultToken := by
  unfold PState.getToken
  rw [if_pos h]

theorem specStd_after {s1 s2 : Nat} {st st1 : PState} {out : POut}
    (hp : Pres st st1) (h1 : st.index + s2 ≤ st1.index + s1) (h2 : st.index ≤ st1.index)
    (h : SpecStd s1 st1 out) : SpecStd s2 st out := by
  cases out with
  | fuelOut => exact h
  | ok e st2 =>
    obtain ⟨hg, hp2, hi⟩ := h
    exact ⟨hg, pres_trans hp hp2, by omega⟩
  | err m st2 =>
    obtain ⟨hg, hp2, hi⟩ := h
    exact ⟨hg, pres_trans hp hp2, Nat.le_trans h2 hi⟩

theorem pres_len {st st2 : PState} (h : Pres st st2) :
    st2.tokens.length = st.tokens.length := by rw [h.1]


theorem specPred_after {bp : Nat} {st stA : PState} {out : POut}
    (hp : Pres st stA) (hidx : st.index ≤ stA.index)
    (h : SpecPred bp stA out) : SpecPred bp st out := by
  cases out with
  | fuelOut => exact h
  | ok e st2 =>
    obtain ⟨hg, hp2, hi⟩ := h
    exact ⟨hg, pres_trans hp hp2, by omega⟩
  | err ms st2 =>
    obtain ⟨hp2, hi, hlk⟩ := h
    refine ⟨pres_trans hp hp2, hi, ?_⟩
    rw [hlk, hp.1]

theorem specStd_of_specPred {st stA : PState} {out : POut}
    (hp : Pres st stA) (hidx : st.index + 1 ≤ stA.index)
    (hin : st.index < st.tokens.length) (hG : Good st)
    (h : SpecPred st.index stA out) : SpecStd 1 st out := by
  cases out with
  | fuelOut => exact h
  | ok e st2 =>
    obtain ⟨hg, hp2, hi⟩ := h
    exact ⟨hg, pres_trans hp hp2, by omega⟩
  | err ms st2 =>
    obtain ⟨hp2, hi, hlk⟩ := h
    have htok : st2.tokens = st.tokens := (pres_trans hp hp2).1
    refine ⟨⟨?_, ?_, ?_, ?_⟩, pres_trans hp hp2, by omega⟩
    · rw [htok, hi]
      omega
    · unfold lookAt
      rw [htok, hi, if_pos hin, hlk, hp.1]
    · rw [htok]
      exact hG.2.2.1
    · rw [htok]
      exact hG.2.2.2

theorem isTerm_cases (t : TokenType) (h : isTerm t = true) :
    t = .VARIABLE ∨ t = .IDENTIFIER := by
  cases t <;> simp_all [isTerm]

theorem rank_rule_le (r : Rule) : rank (.rule r) ≤ 5 := by
  cases r <;> simp [rank]

theorem advance_look_ne {st : PState} (hG1 : Good st.advance) {ty : TokenType}
    (hty : ty ≠ .EOI) (hm1 : st.index + 1 < st.tokens.length ∧
      (st.tokens.getD (st.index + 1) defaultToken).type = ty)
    (hidx1 : st.advance.index = st.index + 1) : st.advance.lookAhead ≠ .EOI := by
  rw [hG1.2.1]
  unfold lookAt
  rw [advance_tokens, hidx1, if_pos hm1.1, hm1.2]
  exact hty

theorem advance2_look_ne {st : PState} (hG2 : Good st.advance.advance) {ty : TokenType}
    (hty : ty ≠ .EOI) (hm2 : st.index + 2 < st.tokens.length ∧
      (st.tokens.getD (st.index + 2) defaultToken).type = ty)
    (hidx2 : st.advance.advance.index = st.index + 2) :
    st.advance.advance.lookAhead ≠ .EOI := by
  rw [hG2.2.1]
  unfold lookAt
  rw [advance_tokens, advance_tokens, hidx2, if_pos hm2.1, hm2.2]
  exact hty

theorem run_spec : ∀ (n : Nat) (c : Call) (st : PState), Good st →
    8 * (st.tokens.length - st.index) + rank c + 1 ≤ n → Spec c st (run n c st) := by
  intro n
  induction n using Nat.strong_induction_on with
  | _ n ih =>
    intro c st hG hn
    obtain ⟨m, rfl⟩ : ∃ m, n = m + 1 := ⟨n - 1, by omega⟩
    rw [run_succ]
    cases c with
    | rule r =>
      cases r with
      | equivalence =>
        simp only [rank] at hn
        dsimp only [runStep]
        have hb1 : 8 * (st.tokens.length - st.index) + rank (.rule .implication) + 1 ≤ m := by
          simp only [rank]; omega
        have h1 := ih m (by omega) (.rule .implication) st hG hb1
        cases hres : run m (.rule .implication) st with
        | fuelOut => rw [hres] at h1; exact h1.elim
        | err ms st1 => rw [hres] at h1; exact ⟨h1.1, h1.2.1, h1.2.2⟩
        | ok lhs st1 =>
          rw [hres] at h1
          obtain ⟨hG1, hp1, hi1⟩ := h1
          have hlen1 := pres_len hp1
          have hb2 : 8 * (st1.tokens.length - st1.index) + rank (.eqLoop lhs) + 1 ≤ m := by
            simp only [rank]
            have := hG1.1
            omega
          have h2 := ih m (by omega) (.eqLoop lhs) st1 hG1 hb2
          exact specStd_after hp1 (by omega) (by omega) h2
      | implication =>
        simp only [rank] at hn
        dsimp only [runStep]
        have hb1 : 8 * (st.tokens.length - st.index) + rank (.rule .conjunction_disjunction) + 1 ≤ m := by
          simp only [rank]; omega
        have h1 := ih m (by omega) (.rule .conjunction_disjunction) st hG hb1
        cases hres : run m (.rule .conjunction_disjunction) st with
        | fuelOut => rw [hres] at h1; exact h1.elim
        | err ms st1 => rw [hres] at h1; exact ⟨h1.1, h1.2.1, h1.2.2⟩
        | ok lhs st1 =>
          rw [hres] at h1
          obtain ⟨hG1, hp1, hi1⟩ := h1
          have hlen1 := pres_len hp1
          have hb2 : 8 * (st1.tokens.length - st1.index) + rank (.impLoop lhs) + 1 ≤ m := by
            simp only [rank]
            have := hG1.1
            omega
          have h2 := ih m (by omega) (.impLoop lhs) st1 hG1 hb2
          exact specStd_after hp1 (by omega) (by omega) h2
      | conjunction_disjunction =>
        simp only [rank] at hn
        dsimp only [runStep]
        have hb1 : 8 * (st.tokens.length - st.index) + rank (.rule .clause) + 1 ≤ m := by
          simp only [rank]; omega
        have h1 := ih m (by omega) (.rule .clause) st hG hb1
        cases hres : run m (.rule .clause) st with
        | fuelOut => rw [hres] at h1; exact h1.elim
        | err ms st1 => rw [hres] at h1; exact ⟨h1.1, h1.2.1, h1.2.2⟩
        | ok lhs st1 =>
          rw [hres] at h1
          obtain ⟨hG1, hp1, hi1⟩ := h1
          have hlen1 := pres_len hp1
          have hb2 : 8 * (st1.tokens.length - st1.index) + rank (.cdLoop lhs) + 1 ≤ m := by
            simp only [rank]
            have := hG1.1
            omega
          have h2 := ih m (by omega) (.cdLoop lhs) st1 hG1 hb2
          exact specStd_after hp1 (by omega) (by omega) h2
      | clause =>
        simp only [rank] at hn
        dsimp only [runStep]
        split
        · exact ih m (by omega) (.rule .atomic) st hG (by simp only [rank]; omega)
        split
        · exact ih m (by omega) (.rule .unary) st hG (by simp only [rank]; omega)
        split
        · exact ih m (by omega) (.rule .quantificational) st hG (by simp only [rank]; omega)
        split
        · -- LPAREN
          rename_i hnt hnu hnq hlp
          have hin : st.index < st.tokens.length := by
            by_contra hge
            have hoob := getToken_eoi_of_oob hG (by omega)
            rw [hlp] at hoob
            exact absurd hoob (by decide)
          have hpk : st.peek 0 = .LPAREN := by
            unfold PState.peek
            rw [Nat.add_zero, if_pos hin]
            rw [getToken_inb hin] at hlp
            exact hlp
          have hla : st.lookAhead ≠ .EOI := by
            rw [look_peek hG, hpk]
            decide
          have hmv := advance_move hG hla
          have hG1 := advance_good hG
          have hb : 8 * (st.advance.tokens.length - st.advance.index) + rank (.rule st.entry) + 1 ≤ m := by
            have hr := rank_rule_le st.entry
            rw [advance_tokens, hmv.1]
            omega
          have h1 := ih m (by omega) (.rule st.entry) st.advance hG1 hb
          cases hres : run m (.rule st.entry) st.advance with
          | fuelOut => rw [hres] at h1; exact h1.elim
          | err ms st2 =>
            rw [hres] at h1
            obtain ⟨hg2, hp2, hi2⟩ := h1
            refine ⟨hg2, pres_trans (pres_advance st) hp2, ?_⟩
            have := hmv.1
            omega
          | ok e st2 =>
            rw [hres] at h1
            obtain ⟨hg2, hp2, hi2⟩ := h1
            dsimp only
            split
            · refine ⟨hg2, pres_trans (pres_advance st) hp2, ?_⟩
              have := hmv.1
              omega
            · refine ⟨advance_good hg2,
                pres_trans (pres_trans (pres_advance st) hp2) (pres_advance st2), ?_⟩
              have h3 := advance_le st2
              have := hmv.1
              omega
        split
        · -- LBRACKET
          rename_i hnt hnu hnq hnl hlb
          have hin : st.index < st.tokens.length := by
            by_contra hge
            have hoob := getToken_eoi_of_oob hG (by omega)
            rw [hlb] at hoob
            exact absurd hoob (by decide)
          have hpk : st.peek 0 = .LBRACKET := by
            unfold PState.peek
            rw [Nat.add_zero, if_pos hin]
            rw [getToken_inb hin] at hlb
            exact hlb
          have hla : st.lookAhead ≠ .EOI := by
            rw [look_peek hG, hpk]
            decide
          have hmv := advance_move hG hla
          have hG1 := advance_good hG
          have hb : 8 * (st.advance.tokens.length - st.advance.index) + rank (.rule st.entry) + 1 ≤ m := by
            have hr := rank_rule_le st.entry
            rw [advance_tokens, hmv.1]
            omega
          have h1 := ih m (by omega) (.rule st.entry) st.advance hG1 hb
          cases hres : run m (.rule st.entry) st.advance with
          | fuelOut => rw [hres] at h1; exact h1.elim
          | err ms st2 =>
            rw [hres] at h1
            obtain ⟨hg2, hp2, hi2⟩ := h1
            refine ⟨hg2, pres_trans (pres_advance st) hp2, ?_⟩
            have := hmv.1
            omega
          | ok e st2 =>
            rw [hres] at h1
            obtain ⟨hg2, hp2, hi2⟩ := h1
            dsimp only
            split
            · refine ⟨hg2, pres_trans (pres_advance st) hp2, ?_⟩
              have := hmv.1
              omega
            · refine ⟨advance_good hg2,
                pres_trans (pres_trans (pres_advance st) hp2) (pres_advance st2), ?_⟩
              have h3 := advance_le st2
              have := hmv.1
              omega
        exact ⟨hG, pres_refl st, Nat.le_refl _⟩
      | quantificational =>
        simp only [rank] at hn
        dsimp only [runStep]
        split
        · exact ⟨hG, pres_refl st, Nat.le_refl _⟩
        split
        · exact ⟨hG, pres_refl st, Nat.le_refl _⟩
        rename_i hq1 hq2
        have hpk0 : st.peek 0 = .FORALL ∨ st.peek 0 = .EXISTS ∨ st.peek 0 = .NOT_EXISTS := by
          by_contra hcon
          push_neg at hcon
          exact hq1 ⟨hcon.1, hcon.2.1, hcon.2.2⟩
        have hpk1 : st.peek 1 = .VARIABLE := not_not.1 hq2
        have hla : st.lookAhead ≠ .EOI := by
          rw [look_peek hG]
          rcases hpk0 with h | h | h <;> rw [h] <;> decide
        have hmv1 := advance_move hG hla
        have hG1 := advance_good hG
        have hm1 := peek_mem st 1 .VARIABLE (by decide) hpk1
        have hla1 := advance_look_ne hG1 (by decide) hm1 hmv1.1
        have hmv2 := advance_move hG1 hla1
        have hG2 := advance_good hG1
        have hidx2 : st.advance.advance.index = st.index + 2 := by rw [hmv2.1, hmv1.1]
        have hb : 8 * (st.advance.advance.tokens.length - st.advance.advance.index)
            + rank (.rule .clause) + 1 ≤ m := by
          simp only [rank]
          rw [advance_tokens, advance_tokens, hidx2]
          have := hm1.1
          omega
        have h1 := ih m (by omega) (.rule .clause) st.advance.advance hG2 hb
        cases hres : run m (.rule .clause) st.advance.advance with
        | fuelOut => rw [hres] at h1; exact h1.elim
        | err ms st3 =>
          rw [hres] at h1
          obtain ⟨hg3, hp3, hi3⟩ := h1
          refine ⟨hg3, pres_trans (pres_trans (pres_advance st) (pres_advance st.advance)) hp3, ?_⟩
          rw [hidx2] at hi3
          omega
        | ok scope st3 =>
          rw [hres] at h1
          obtain ⟨hg3, hp3, hi3⟩ := h1
          rw [hidx2] at hi3
          have hpc := pres_trans (pres_trans (pres_advance st) (pres_advance st.advance)) hp3
          dsimp only
          split
          · cases hmap : st.map .NOT with
            | some op => exact ⟨hg3, hpc, by omega⟩
            | none => exact ⟨hg3, hpc, by omega⟩
          · exact ⟨hg3, hpc, by omega⟩
      | unary =>
        simp only [rank] at hn
        dsimp only [runStep]
        split
        · exact ⟨hG, pres_refl st, Nat.le_refl _⟩
        rename_i hu
        have hop : isUnaryOperator (st.peek 0) = true := not_not.1 hu
        have hpk_ne : st.peek 0 ≠ .EOI := by
          intro h
          rw [h] at hop
          simp [isUnaryOperator] at hop
        have hla : st.lookAhead ≠ .EOI := by
          rw [look_peek hG]
          exact hpk_ne
        have hmv := advance_move hG hla
        have hG1 := advance_good hG
        cases hmop : (if (st.getToken st.index).type = .NOT then st.map .NOT
                      else if (st.getToken st.index).type = .POS then st.map .POS
                      else st.map .NEC) with
        | none => exact ⟨hG, pres_refl st, Nat.le_refl _⟩
        | some op =>
          have hb : 8 * (st.advance.tokens.length - st.advance.index)
              + rank (.rule .clause) + 1 ≤ m := by
            simp only [rank]
            rw [advance_tokens, hmv.1]
            omega
          have h1 := ih m (by omega) (.rule .clause) st.advance hG1 hb
          cases hres : run m (.rule .clause) st.advance with
          | fuelOut => rw [hres] at h1; exact h1.elim
          | err ms st2 =>
            rw [hres] at h1
            obtain ⟨hg2, hp2, hi2⟩ := h1
            refine ⟨hg2, pres_trans (pres_advance st) hp2, ?_⟩
            have := hmv.1
            omega
          | ok e st2 =>
            rw [hres] at h1
            obtain ⟨hg2, hp2, hi2⟩ := h1
            refine ⟨hg2, pres_trans (pres_advance st) hp2, ?_⟩
            have := hmv.1
            omega
      | atomic =>
        simp only [rank] at hn
        dsimp only [runStep]
        split
        · exact ⟨hG, pres_refl st, Nat.le_refl _⟩
        split
        · exact ih m (by omega) (.rule .predication) st hG (by simp only [rank]; omega)
        split
        · exact ih m (by omega) (.rule .identity) st hG (by simp only [rank]; omega)
        split
        · exact ih m (by omega) (.rule .inequality) st hG (by simp only [rank]; omega)
        exact ⟨hG, pres_refl st, Nat.le_refl _⟩
      | predication =>
        simp only [rank] at hn
        dsimp only [runStep]
        split
        · exact ⟨hG, pres_refl st, Nat.le_refl _⟩
        split
        · exact ⟨hG, pres_refl st, Nat.le_refl _⟩
        split
        · exact ⟨hG, pres_refl st, Nat.le_refl _⟩
        split
        · exact ⟨hG, pres_refl st, Nat.le_refl _⟩
        rename_i hp0 hp1 hp2 hp3
        have hpk0 : st.peek 0 = .IDENTIFIER := not_not.1 hp0
        have hpk1 : st.peek 1 = .LPAREN := not_not.1 hp1
        have hpk2 : isTerm (st.peek 2) = true := not_not.1 hp2
        have hla : st.lookAhead ≠ .EOI := by
          rw [look_peek hG, hpk0]
          decide
        have hmv1 := advance_move hG hla
        have hG1 := advance_good hG
        have hm1 := peek_mem st 1 .LPAREN (by decide) hpk1
        have hla1 := advance_look_ne hG1 (by decide) hm1 hmv1.1
        have hmv2 := advance_move hG1 hla1
        have hG2 := advance_good hG1
        have hidx2 : st.advance.advance.index = st.index + 2 := by rw [hmv2.1, hmv1.1]
        have hterm := isTerm_cases _ hpk2
        have hm2 : st.index + 2 < st.tokens.length := by
          rcases hterm with h | h
          exacts [(peek_mem st 2 _ (by decide) h).1, (peek_mem st 2 _ (by decide) h).1]
        have hla2 : st.advance.advance.lookAhead ≠ .EOI := by
          rcases hterm with h | h
          · exact advance2_look_ne hG2 (by decide) (peek_mem st 2 _ (by decide) h) hidx2
          · exact advance2_look_ne hG2 (by decide) (peek_mem st 2 _ (by decide) h) hidx2
        have hmv3 := advance_move hG2 hla2
        have hG3 := advance_good hG2
        have hidx3 : st.advance.advance.advance.index = st.index + 3 := by rw [hmv3.1, hidx2]
        have hb : 8 * (st.advance.advance.advance.tokens.length - st.advance.advance.advance.index)
            + 0 + 1 ≤ m := by
          rw [advance_tokens, advance_tokens, advance_tokens, hidx3]
          omega
        refine specStd_of_specPred
          (pres_trans (pres_trans (pres_advance st) (pres_advance st.advance))
            (pres_advance st.advance.advance))
          (by rw [hidx3]; omega) hmv1.2 hG
          (ih m (by omega) (.predLoop st.index _ _) st.advance.advance.advance hG3 hb)
      | identity =>
        simp only [rank] at hn
        dsimp only [runStep]
        split
        · exact ⟨hG, pres_refl st, Nat.le_refl _⟩
        split
        · exact ⟨hG, pres_refl st, Nat.le_refl _⟩
        split
        · exact ⟨hG, pres_refl st, Nat.le_refl _⟩
        rename_i hq0 hq1 hq2
        have hpk0 : st.peek 0 = .IDENTIFIER ∨ st.peek 0 = .VARIABLE := by
          by_contra hcon
          push_neg at hcon
          exact hq0 ⟨hcon.1, hcon.2⟩
        have hpk1 : st.peek 1 = .ID := not_not.1 hq1
        have hpk2 : st.peek 2 = .IDENTIFIER ∨ st.peek 2 = .VARIABLE := by
          by_contra hcon
          push_neg at hcon
          exact hq2 ⟨hcon.1, hcon.2⟩
        have hla : st.lookAhead ≠ .EOI := by
          rw [look_peek hG]
          rcases hpk0 with h | h <;> rw [h] <;> decide
        have hmv1 := advance_move hG hla
        have hG1 := advance_good hG
        have hm1 := peek_mem st 1 .ID (by decide) hpk1
        have hla1 := advance_look_ne hG1 (by decide) hm1 hmv1.1
        have hmv2 := advance_move hG1 hla1
        have hG2 := advance_good hG1
        have hidx2 : st.advance.advance.index = st.index + 2 := by rw [hmv2.1, hmv1.1]
        have hla2 : st.advance.advance.lookAhead ≠ .EOI := by
          rcases hpk2 with h | h
          · exact advance2_look_ne hG2 (by decide) (peek_mem st 2 _ (by decide) h) hidx2
          · exact advance2_look_ne hG2 (by decide) (peek_mem st 2 _ (by decide) h) hidx2
        have hmv3 := advance_move hG2 hla2
        refine ⟨advance_good hG2,
          pres_trans (pres_trans (pres_advance st) (pres_advance st.advance))
            (pres_advance st.advance.advance), ?_⟩
        rw [hmv3.1, hidx2]
        omega
      | inequality =>
        simp only [rank] at hn
        dsimp only [runStep]
        split
        · exact ⟨hG, pres_refl st, Nat.le_refl _⟩
        split
        · exact ⟨hG, pres_refl st, Nat.le_refl _⟩
        split
        · exact ⟨hG, pres_refl st, Nat.le_refl _⟩
        rename_i hq0 hq1 hq2
        have hpk0 : st.peek 0 = .IDENTIFIER ∨ st.peek 0 = .VARIABLE := by
          by_contra hcon
          push_neg at hcon
          exact hq0 ⟨hcon.1, hcon.2⟩
        have hpk1 : st.peek 1 = .NEQ := not_not.1 hq1
        have hpk2 : st.peek 2 = .IDENTIFIER ∨ st.peek 2 = .VARIABLE := by
          by_contra hcon
          push_neg at hcon
          exact hq2 ⟨hcon.1, hcon.2⟩
        have hla : st.lookAhead ≠ .EOI := by
          rw [look_peek hG]
          rcases hpk0 with h | h <;> rw [h] <;> decide
        have hmv1 := advance_move hG hla
        have hG1 := advance_good hG
        have hm1 := peek_mem st 1 .NEQ (by decide) hpk1
        have hla1 := advance_look_ne hG1 (by decide) hm1 hmv1.1
        have hmv2 := advance_move hG1 hla1
        have hG2 := advance_good hG1
        have hidx2 : st.advance.advance.index = st.index + 2 := by rw [hmv2.1, hmv1.1]
        have hla2 : st.advance.advance.lookAhead ≠ .EOI := by
          rcases hpk2 with h | h
          · exact advance2_look_ne hG2 (by decide) (peek_mem st 2 _ (by decide) h) hidx2
          · exact advance2_look_ne hG2 (by decide) (peek_mem st 2 _ (by decide) h) hidx2
        have hmv3 := advance_move hG2 hla2
        have hidx3 : st.advance.advance.advance.index = st.index + 3 := by rw [hmv3.1, hidx2]
        have hpc := pres_trans (pres_trans (pres_advance st) (pres_advance st.advance))
          (pres_advance st.advance.advance)
        cases hmap : st.map .NOT with
        | some op => exact ⟨advance_good hG2, hpc, by rw [hidx3]; omega⟩
        | none => exact ⟨advance_good hG2, hpc, by rw [hidx3]; omega⟩
    | eqLoop lhs =>
      simp only [rank] at hn
      dsimp only [runStep]
      by_cases hpk : st.peek 0 = .EQ
      · rw [if_pos hpk]
        have hla : st.lookAhead ≠ .EOI := by
          rw [look_peek hG, hpk]
          decide
        have hmv := advance_move hG hla
        have hG1 := advance_good hG
        have hb1 : 8 * (st.advance.tokens.length - st.advance.index)
            + rank (.rule .implication) + 1 ≤ m := by
          simp only [rank]
          rw [advance_tokens, hmv.1]
          omega
        have h1 := ih m (by omega) (.rule .implication) st.advance hG1 hb1
        cases hres : run m (.rule .implication) st.advance with
        | fuelOut => rw [hres] at h1; exact h1.elim
        | err ms st2 =>
          rw [hres] at h1
          obtain ⟨hg2, hp2, hi2⟩ := h1
          refine ⟨hg2, pres_trans (pres_advance st) hp2, ?_⟩
          have := hmv.1
          omega
        | ok rhs st2 =>
          rw [hres] at h1
          obtain ⟨hg2, hp2, hi2⟩ := h1
          have hplen : st2.tokens.length = st.tokens.length := by
            rw [pres_len hp2, advance_tokens]
          cases hmap : st.map .EQ with
          | none =>
            refine ⟨hg2, pres_trans (pres_advance st) hp2, ?_⟩
            have := hmv.1
            omega
          | some op =>
            have hb2 : 8 * (st2.tokens.length - st2.index)
                + rank (.eqLoop (.binary op lhs rhs)) + 1 ≤ m := by
              simp only [rank]
              have h4 := hg2.1
              have := hmv.1
              omega
            have h2 := ih m (by omega) (.eqLoop (.binary op lhs rhs)) st2 hg2 hb2
            refine specStd_after (pres_trans (pres_advance st) hp2) ?_ ?_ h2
            · have := hmv.1
              omega
            · have := hmv.1
              omega
      · rw [if_neg hpk]
        exact ⟨hG, pres_refl st, Nat.le_refl _⟩
    | impLoop lhs =>
      simp only [rank] at hn
      dsimp only [runStep]
      by_cases hpk : st.peek 0 = .IF
      · rw [if_pos hpk]
        have hla : st.lookAhead ≠ .EOI := by
          rw [look_peek hG, hpk]
          decide
        have hmv := advance_move hG hla
        have hG1 := advance_good hG
        have hb1 : 8 * (st.advance.tokens.length - st.advance.index)
            + rank (.rule .conjunction_disjunction) + 1 ≤ m := by
          simp only [rank]
          rw [advance_tokens, hmv.1]
          omega
        have h1 := ih m (by omega) (.rule .conjunction_disjunction) st.advance hG1 hb1
        cases hres : run m (.rule .conjunction_disjunction) st.advance with
        | fuelOut => rw [hres] at h1; exact h1.elim
        | err ms st2 =>
          rw [hres] at h1
          obtain ⟨hg2, hp2, hi2⟩ := h1
          refine ⟨hg2, pres_trans (pres_advance st) hp2, ?_⟩
          have := hmv.1
          omega
        | ok rhs st2 =>
          rw [hres] at h1
          obtain ⟨hg2, hp2, hi2⟩ := h1
          have hplen : st2.tokens.length = st.tokens.length := by
            rw [pres_len hp2, advance_tokens]
          cases hmap : st.map .IF with
          | none =>
            refine ⟨hg2, pres_trans (pres_advance st) hp2, ?_⟩
            have := hmv.1
            omega
          | some op =>
            have hb2 : 8 * (st2.tokens.length - st2.index)
                + rank (.impLoop (.binary op lhs rhs)) + 1 ≤ m := by
              simp only [rank]
              have h4 := hg2.1
              have := hmv.1
              omega
            have h2 := ih m (by omega) (.impLoop (.binary op lhs rhs)) st2 hg2 hb2
            refine specStd_after (pres_trans (pres_advance st) hp2) ?_ ?_ h2
            · have := hmv.1
              omega
            · have := hmv.1
              omega
      · rw [if_neg hpk]
        exact ⟨hG, pres_refl st, Nat.le_refl _⟩
    | cdLoop lhs =>
      simp only [rank] at hn
      dsimp only [runStep]
      by_cases hpk : st.peek 0 = .OR ∨ st.peek 0 = .AND
      · rw [if_pos hpk]
        have hla : st.lookAhead ≠ .EOI := by
          rw [look_peek hG]
          rcases hpk with h | h <;> rw [h] <;> decide
        cases hmop : (if (st.getToken st.index).type = .OR then st.map .OR
                      else st.map .AND) with
        | none => exact ⟨hG, pres_refl st, Nat.le_refl _⟩
        | some op =>
          have hmv := advance_move hG hla
          have hG1 := advance_good hG
          have hb1 : 8 * (st.advance.tokens.length - st.advance.index)
              + rank (.rule .clause) + 1 ≤ m := by
            simp only [rank]
            rw [advance_tokens, hmv.1]
            omega
          have h1 := ih m (by omega) (.rule .clause) st.advance hG1 hb1
          cases hres : run m (.rule .clause) st.advance with
          | fuelOut => rw [hres] at h1; exact h1.elim
          | err ms st2 =>
            rw [hres] at h1
            obtain ⟨hg2, hp2, hi2⟩ := h1
            refine ⟨hg2, pres_trans (pres_advance st) hp2, ?_⟩
            have := hmv.1
            omega
          | ok rhs st2 =>
            rw [hres] at h1
            obtain ⟨hg2, hp2, hi2⟩ := h1
            have hplen : st2.tokens.length = st.tokens.length := by
              rw [pres_len hp2, advance_tokens]
            have hb2 : 8 * (st2.tokens.length - st2.index)
                + rank (.cdLoop (.binary op lhs rhs)) + 1 ≤ m := by
              simp only [rank]
              have h4 := hg2.1
              have := hmv.1
              omega
            have h2 := ih m (by omega) (.cdLoop (.binary op lhs rhs)) st2 hg2 hb2
            refine specStd_after (pres_trans (pres_advance st) hp2) ?_ ?_ h2
            · have := hmv.1
              omega
            · have := hmv.1
              omega
      · rw [if_neg hpk]
        exact ⟨hG, pres_refl st, Nat.le_refl _⟩
    | predLoop bp predicate arguments =>
      simp only [rank] at hn
      dsimp only [runStep]
      by_cases hc : st.peek 0 = .COMMA
      · rw [if_pos hc]
        by_cases ht : st.peek 1 ≠ .IDENTIFIER ∧ st.peek 1 ≠ .VARIABLE
        · rw [if_pos ht]
          exact ⟨⟨rfl, rfl, rfl⟩, rfl, rfl⟩
        · rw [if_neg ht]
          have hpk1 : st.peek 1 = .IDENTIFIER ∨ st.peek 1 = .VARIABLE := by
            by_contra hcon
            push_neg at hcon
            exact ht ⟨hcon.1, hcon.2⟩
          have hla : st.lookAhead ≠ .EOI := by
            rw [look_peek hG, hc]
            decide
          have hmv1 := advance_move hG hla
          have hG1 := advance_good hG
          have hla1 : st.advance.lookAhead ≠ .EOI := by
            rcases hpk1 with h | h
            · exact advance_look_ne hG1 (by decide) (peek_mem st 1 _ (by decide) h) hmv1.1
            · exact advance_look_ne hG1 (by decide) (peek_mem st 1 _ (by decide) h) hmv1.1
          have hmv2 := advance_move hG1 hla1
          have hG2 := advance_good hG1
          have hidx2 : st.advance.advance.index = st.index + 2 := by rw [hmv2.1, hmv1.1]
          have hin1 : st.index + 1 < st.tokens.length := by
            rcases hpk1 with h | h
            exacts [(peek_mem st 1 _ (by decide) h).1, (peek_mem st 1 _ (by decide) h).1]
          have hb : 8 * (st.advance.advance.tokens.length - st.advance.advance.index)
              + 0 + 1 ≤ m := by
            rw [advance_tokens, advance_tokens, hidx2]
            omega
          refine specPred_after (pres_trans (pres_advance st) (pres_advance st.advance))
            (by rw [hidx2]; omega)
            (ih m (by omega) (.predLoop bp predicate _) st.advance.advance hG2 hb)
      · rw [if_neg hc]
        by_cases hr : st.peek 0 ≠ .RPAREN
        · rw [if_pos hr]
          exact ⟨⟨rfl, rfl, rfl⟩, rfl, rfl⟩
        · rw [if_neg hr]
          exact ⟨advance_good hG, pres_advance st, advance_le st⟩

end QMLParser

namespace QMLParser

theorem sentence_total {st : PState} (hG : Good st) (n : Nat)
    (hn : 8 * (st.tokens.length - st.index) + 7 ≤ n) : sentence n st ≠ .fuelOut := by
  unfold sentence
  have hb : 8 * (st.tokens.length - st.index) + rank (.rule st.entry) + 1 ≤ n := by
    have := rank_rule_le st.entry
    omega
  have h1 := run_spec n (.rule st.entry) st hG hb
  cases hres : run n (.rule st.entry) st with
  | fuelOut => rw [hres] at h1; exact h1.elim
  | err ms st1 => exact fun hcon => POut.noConfusion hcon
  | ok e st1 =>
    dsimp only
    split
    · exact fun hcon => POut.noConfusion hcon
    · exact fun hcon => POut.noConfusion hcon

/-- C7 amended: for every finite token list that is empty or ends with an
`EOI` token — in particular every token list the lexer can produce — and for
every operator mapping, every grammar entry rule and every initial cursor
state, `Parser::parse` terminates: some fuel yields a result. -/
theorem parse_terminates_with_trailing_EOI
    (tokens : List Token) (map : TokenType → Option Operator) (entry : Rule)
    (i : Nat) (l : TokenType) (e0 : Rule)
    (h : tokens = [] ∨ (tokens.getD (tokens.length - 1) defaultToken).type = .EOI) :
    ∃ n, Parser.parse n ⟨i, l, tokens, map, e0⟩ entry ≠ .fuelOut := by
  cases tokens with
  | nil => exact ⟨0, fun hcon => POut.noConfusion hcon⟩
  | cons t ts =>
    have hlast : ((t :: ts).getD ((t :: ts).length - 1) defaultToken).type = .EOI := by
      rcases h with h | h
      · exact absurd h (by simp)
      · exact h
    refine ⟨8 * (t :: ts).length + 8, ?_⟩
    show sentence (8 * (t :: ts).length + 8)
        ⟨0, t.type, t :: ts, map, entry⟩ ≠ .fuelOut
    apply sentence_total
    · refine ⟨by simp, ?_, by simp, hlast⟩
      unfold lookAt
      rw [if_pos (by simp)]
      rfl
    · show 8 * ((t :: ts).length - 0) + 7 ≤ 8 * (t :: ts).length + 8
      omega

/-- Witness for C7 amended: the lexer output for `x=y` ends in `EOI`, and
parsing it terminates. -/
theorem parse_terminates_with_trailing_EOI_witness :
    (lex [0x78, 0x3D, 0x79] = [] ∨
      ((lex [0x78, 0x3D, 0x79]).getD ((lex [0x78, 0x3D, 0x79]).length - 1) defaultToken).type
        = .EOI) ∧
    ∃ n, Parser.parse n
        ⟨0, .NIL, lex [0x78, 0x3D, 0x79], mapToAlethicOperator, .equivalence⟩
        .equivalence ≠ .fuelOut :=
  ⟨Or.inr (by decide),
    parse_terminates_with_trailing_EOI (lex [0x78, 0x3D, 0x79]) mapToAlethicOperator
      .equivalence 0 .NIL .equivalence (Or.inr (by decide))⟩

end QMLParser

namespace QMLParser

/-! ## Left-associative folding of the binary levels (C4) -/

/-- The tokens of the atomic operand `p(v)` used in the chain families. -/
def atomToks (p v : List Nat) : List Token :=
  [⟨p, .IDENTIFIER⟩, ⟨[0x28], .LPAREN⟩, ⟨v, .VARIABLE⟩, ⟨[0x29], .RPAREN⟩]

/-- The AST of the atomic operand `p(v)`. -/
def atomExpr (p v : List Nat) : Expression :=
  .predication p [⟨v, .VARIABLE⟩]

/-- The unconsumed tokens of a parser state. -/
def sfx (st : PState) : List Token := st.tokens.drop st.index

/-- Lookahead into a token list with the same out-of-range convention as
`Parser::peek`. -/
def listPeek (l : List Token) (k : Nat) : TokenType :=
  if k < l.length then (l.getD k defaultToken).type else .EOI

theorem peek_sfx {st : PState} (hle : st.index ≤ st.tokens.length) (k : Nat) :
    st.peek k = listPeek (sfx st) k := by
  unfold PState.peek listPeek sfx
  by_cases h : st.index + k < st.tokens.length
  · rw [if_pos h, if_pos (by rw [List.length_drop]; omega)]
    rw [List.getD_eq_getElem?_getD, List.getD_eq_getElem?_getD, List.getElem?_drop]
  · rw [if_neg h, if_neg (by rw [List.length_drop]; omega)]

theorem sfx_head {st : PState} {t : Token} {rest : List Token} (hs : sfx st = t :: rest) :
    st.index < st.tokens.length ∧ st.tokens.getD st.index defaultToken = t := by
  have hlen : st.tokens.length - st.index = rest.length + 1 := by
    have := congrArg List.length hs
    rw [sfx, List.length_drop] at this
    simpa using this
  constructor
  · omega
  · have h0 : (sfx st).getD 0 defaultToken = t := by rw [hs]; rfl
    rw [sfx, List.getD_eq_getElem?_getD, List.getElem?_drop, Nat.add_zero] at h0
    rw [List.getD_eq_getElem?_getD]
    exact h0

theorem lookAt_of_sfx {st : PState} {t : Token} {rest : List Token}
    (hs : sfx st = t :: rest) : lookAt st = t.type := by
  unfold lookAt
  rw [if_pos (sfx_head hs).1, (sfx_head hs).2]

theorem advance_sfx {st : PState} (hG : Good st) {t : Token} {rest : List Token}
    (hs : sfx st = t :: rest) (hne : t.type ≠ .EOI) :
    sfx st.advance = rest ∧ st.advance.index = st.index + 1 := by
  have hla : st.lookAhead ≠ .EOI := by
    rw [hG.2.1, lookAt_of_sfx hs]
    exact hne
  have hmv := advance_move hG hla
  constructor
  · unfold sfx
    rw [advance_tokens, hmv.1]
    have hdd : st.tokens.drop (st.index + 1) = (st.tokens.drop st.index).drop 1 := by
      rw [List.drop_drop, Nat.add_comm]
    rw [hdd]
    rw [show st.tokens.drop st.index = sfx st from rfl, hs]
    rfl
  · exact hmv.1

theorem getToken_of_sfx {st : PState} {t : Token} {rest : List Token}
    (hs : sfx st = t :: rest) : st.getToken st.index = t := by
  rw [getToken_inb (sfx_head hs).1]
  exact (sfx_head hs).2

end QMLParser

namespace QMLParser

theorem listPeek_cons_zero (t : Token) (l : List Token) : listPeek (t :: l) 0 = t.type := by
  unfold listPeek
  rw [if_pos (by simp)]
  rfl

theorem listPeek_cons_succ (t : Token) (l : List Token) (k : Nat) :
    listPeek (t :: l) (k + 1) = listPeek l k := by
  unfold listPeek
  by_cases h : k < l.length
  · rw [if_pos (by simp; omega), if_pos h]
    rfl
  · rw [if_neg (by simp; omega), if_neg h]

theorem clause_atom {st : PState} {p v : List Nat} {rest : List Token}
    (hG : Good st) (hs : sfx st = atomToks p v ++ rest) (k : Nat) :
    run (k + 4) (.rule .clause) st =
      .ok (atomExpr p v) st.advance.advance.advance.advance ∧
    Good st.advance.advance.advance.advance ∧
    sfx st.advance.advance.advance.advance = rest ∧
    Pres st st.advance.advance.advance.advance ∧
    st.advance.advance.advance.advance.index = st.index + 4 := by
  have hs0 : sfx st = ⟨p, .IDENTIFIER⟩ :: ⟨[0x28], .LPAREN⟩ :: ⟨v, .VARIABLE⟩ ::
      ⟨[0x29], .RPAREN⟩ :: rest := by
    rw [hs]
    rfl
  have ha1 := advance_sfx hG hs0 (by simp)
  have hG1 := advance_good hG
  have ha2 := advance_sfx hG1 ha1.1 (by simp)
  have hG2 := advance_good hG1
  have ha3 := advance_sfx hG2 ha2.1 (by simp)
  have hG3 := advance_good hG2
  have ha4 := advance_sfx hG3 ha3.1 (by simp)
  have hG4 := advance_good hG3
  have hpk0 : st.peek 0 = .IDENTIFIER := by
    rw [peek_sfx hG.1, hs0, listPeek_cons_zero]
  have hpk1 : st.peek 1 = .LPAREN := by
    rw [peek_sfx hG.1, hs0, listPeek_cons_succ, listPeek_cons_zero]
  have hpk2 : st.peek 2 = .VARIABLE := by
    rw [peek_sfx hG.1, hs0, listPeek_cons_succ, listPeek_cons_succ, listPeek_cons_zero]
  have hpk3 : st.peek 3 = .RPAREN := by
    rw [peek_sfx hG.1, hs0, listPeek_cons_succ, listPeek_cons_succ, listPeek_cons_succ,
      listPeek_cons_zero]
  have hcur : st.getToken st.index = ⟨p, .IDENTIFIER⟩ := getToken_of_sfx hs0
  have hgd0 : st.tokens.getD st.index defaultToken = ⟨p, .IDENTIFIER⟩ := (sfx_head hs0).2
  have hgd2 : st.advance.advance.tokens.getD st.advance.advance.index defaultToken =
      ⟨v, .VARIABLE⟩ := (sfx_head ha2.1).2
  have hpk3' : st.advance.advance.advance.peek 0 = .RPAREN := by
    rw [peek_sfx hG3.1, ha3.1, listPeek_cons_zero]
  -- step A: clause dispatches to atomic
  have eA : run (k + 4) (.rule .clause) st = run (k + 3) (.rule .atomic) st := by
    rw [run_succ]
    dsimp only [runStep]
    rw [hcur]
    rw [if_pos (by simp [isTerm])]
  -- step B: atomic dispatches to predication
  have eB : run (k + 3) (.rule .atomic) st = run (k + 2) (.rule .predication) st := by
    rw [run_succ]
    dsimp only [runStep]
    rw [if_neg (by rw [hpk0]; decide), if_pos hpk1]
  -- step C: predication commits and enters the argument loop
  have eC : run (k + 2) (.rule .predication) st =
      run (k + 1) (.predLoop st.index p [⟨v, .VARIABLE⟩]) st.advance.advance.advance := by
    rw [run_succ]
    dsimp only [runStep]
    rw [if_neg (by rw [hpk0]; decide)]
    rw [if_neg (by rw [hpk1]; decide)]
    rw [if_neg (by rw [hpk2]; decide)]
    rw [if_neg (by rw [hpk3]; decide)]
    rw [hgd0, hgd2]
    rfl
  -- step D: the loop sees RPAREN and returns
  have eD : run (k + 1) (.predLoop st.index p [⟨v, .VARIABLE⟩]) st.advance.advance.advance =
      .ok (.predication p [⟨v, .VARIABLE⟩]) st.advance.advance.advance.advance := by
    rw [run_succ]
    dsimp only [runStep]
    rw [if_neg (by rw [hpk3']; decide)]
    rw [if_neg (by rw [hpk3']; decide)]
  refine ⟨by rw [eA, eB, eC, eD]; rfl, hG4, ha4.1, ?_, ?_⟩
  · exact pres_trans (pres_trans (pres_trans (pres_advance st) (pres_advance st.advance))
      (pres_advance st.advance.advance)) (pres_advance st.advance.advance.advance)
  · rw [ha4.2, ha3.2, ha2.2, ha1.2]

end QMLParser

namespace QMLParser

theorem cdLoop_exit {st : PState} (lhs : Expression)
    (hnor : st.peek 0 ≠ .OR) (hnand : st.peek 0 ≠ .AND) (k : Nat) :
    run (k + 1) (.cdLoop lhs) st = .ok lhs st := by
  rw [run_succ]
  dsimp only [runStep]
  rw [if_neg (by simp [hnor, hnand])]

theorem impLoop_exit {st : PState} (lhs : Expression) (hnif : st.peek 0 ≠ .IF) (k : Nat) :
    run (k + 1) (.impLoop lhs) st = .ok lhs st := by
  rw [run_succ]
  dsimp only [runStep]
  rw [if_neg hnif]

theorem eqLoop_exit {st : PState} (lhs : Expression) (hneq : st.peek 0 ≠ .EQ) (k : Nat) :
    run (k + 1) (.eqLoop lhs) st = .ok lhs st := by
  rw [run_succ]
  dsimp only [runStep]
  rw [if_neg hneq]

theorem conjdisj_atom {st : PState} {p v : List Nat} {rest : List Token}
    (hG : Good st) (hs : sfx st = atomToks p v ++ rest)
    (hnor : listPeek rest 0 ≠ .OR) (hnand : listPeek rest 0 ≠ .AND) (k : Nat) :
    run (k + 6) (.rule .conjunction_disjunction) st =
      .ok (atomExpr p v) st.advance.advance.advance.advance ∧
    Good st.advance.advance.advance.advance ∧
    sfx st.advance.advance.advance.advance = rest ∧
    Pres st st.advance.advance.advance.advance ∧
    st.advance.advance.advance.advance.index = st.index + 4 := by
  obtain ⟨hcl, hG4, hs4, hp4, hi4⟩ := clause_atom hG hs (k + 1)
  refine ⟨?_, hG4, hs4, hp4, hi4⟩
  rw [run_succ]
  dsimp only [runStep]
  rw [show k + 1 + 4 = k + 5 by omega] at hcl
  rw [hcl]
  have hpk : st.advance.advance.advance.advance.peek 0 = listPeek rest 0 := by
    rw [peek_sfx hG4.1, hs4]
  exact cdLoop_exit (atomExpr p v) (by rw [hpk]; exact hnor) (by rw [hpk]; exact hnand) (k + 4)

theorem implication_atom {st : PState} {p v : List Nat} {rest : List Token}
    (hG : Good st) (hs : sfx st = atomToks p v ++ rest)
    (hnor : listPeek rest 0 ≠ .OR) (hnand : listPeek rest 0 ≠ .AND)
    (hnif : listPeek rest 0 ≠ .IF) (k : Nat) :
    run (k + 8) (.rule .implication) st =
      .ok (atomExpr p v) st.advance.advance.advance.advance ∧
    Good st.advance.advance.advance.advance ∧
    sfx st.advance.advance.advance.advance = rest ∧
    Pres st st.advance.advance.advance.advance ∧
    st.advance.advance.advance.advance.index = st.index + 4 := by
  obtain ⟨hcd, hG4, hs4, hp4, hi4⟩ := conjdisj_atom hG hs hnor hnand (k + 1)
  refine ⟨?_, hG4, hs4, hp4, hi4⟩
  rw [run_succ]
  dsimp only [runStep]
  rw [show k + 1 + 6 = k + 7 by omega] at hcd
  rw [hcd]
  have hpk : st.advance.advance.advance.advance.peek 0 = listPeek rest 0 := by
    rw [peek_sfx hG4.1, hs4]
  exact impLoop_exit (atomExpr p v) (by rw [hpk]; exact hnif) (k + 6)

end QMLParser

namespace QMLParser

/-- The `→` token of the chain families. -/
def ifTok : Token := ⟨[0xE2, 0x86, 0x92], .IF⟩

/-- The `↔` token of the chain families. -/
def eqTok : Token := ⟨[0xE2, 0x86, 0x94], .EQ⟩

/-- The `∧` token of the chain families. -/
def andTok : Token := ⟨[0xE2, 0x88, 0xA7], .AND⟩

/-- The `∨` token of the chain families. -/
def orTok : Token := ⟨[0xE2, 0x88, 0xA8], .OR⟩

theorem impLoop_chain :
    ∀ (rest : List (List Nat × List Nat)) (st : PState) (lhs : Expression)
      (tail : List Token) (n : Nat),
      Good st →
      sfx st = rest.flatMap (fun pv => ifTok :: atomToks pv.1 pv.2) ++ tail →
      st.map = mapToAlethicOperator →
      listPeek tail 0 ≠ .IF → listPeek tail 0 ≠ .OR → listPeek tail 0 ≠ .AND →
      10 * rest.length + 1 ≤ n →
      ∃ st2, run n (.impLoop lhs) st =
          .ok (rest.foldl (fun acc pv => .binary .CONDITIONAL acc (atomExpr pv.1 pv.2)) lhs) st2 ∧
        Good st2 ∧ sfx st2 = tail ∧ Pres st st2 := by
  intro rest
  induction rest with
  | nil =>
    intro st lhs tail n hG hs hmap hnif hnor hnand hn
    obtain ⟨k, rfl⟩ : ∃ k, n = k + 1 := ⟨n - 1, by omega⟩
    have hst : sfx st = tail := by simpa using hs
    have hpk : st.peek 0 = listPeek tail 0 := by
      rw [peek_sfx hG.1, hst]
    refine ⟨st, ?_, hG, hst, pres_refl st⟩
    simpa using impLoop_exit lhs (by rw [hpk]; exact hnif) k
  | cons pv rest' ih =>
    intro st lhs tail n hG hs hmap hnif hnor hnand hn
    simp only [List.length_cons] at hn
    obtain ⟨k, rfl⟩ : ∃ k, n = k + 1 := ⟨n - 1, by omega⟩
    have hs' : sfx st = ifTok :: (atomToks pv.1 pv.2 ++
        (rest'.flatMap (fun q => ifTok :: atomToks q.1 q.2) ++ tail)) := by
      rw [hs]
      simp [List.append_assoc]
    have hpk : st.peek 0 = .IF := by
      rw [peek_sfx hG.1, hs', listPeek_cons_zero]
      rfl
    rw [run_succ]
    dsimp only [runStep]
    rw [if_pos hpk]
    have ha1 := advance_sfx hG hs' (by decide)
    have hG1 := advance_good hG
    obtain ⟨j, rfl⟩ : ∃ j, k = j + 6 := ⟨k - 6, by omega⟩
    have hnext_or : listPeek (rest'.flatMap (fun q => ifTok :: atomToks q.1 q.2) ++ tail) 0
        ≠ .OR := by
      cases rest' with
      | nil => simpa using hnor
      | cons q qs =>
        rw [List.flatMap_cons, List.cons_append, List.cons_append, listPeek_cons_zero]
        decide
    have hnext_and : listPeek (rest'.flatMap (fun q => ifTok :: atomToks q.1 q.2) ++ tail) 0
        ≠ .AND := by
      cases rest' with
      | nil => simpa using hnand
      | cons q qs =>
        rw [List.flatMap_cons, List.cons_append, List.cons_append, listPeek_cons_zero]
        decide
    obtain ⟨hcd, hG4, hs4, hp4, hi4⟩ := conjdisj_atom hG1 ha1.1 hnext_or hnext_and j
    have hmap4 : st.advance.advance.advance.advance.advance.map = mapToAlethicOperator := by
      rw [hp4.2.1, advance_map, hmap]
    obtain ⟨st2, hrun, hG2, hs2, hp2⟩ := ih st.advance.advance.advance.advance.advance
      (.binary .CONDITIONAL lhs (atomExpr pv.1 pv.2)) tail (j + 6) hG4 hs4 hmap4
      hnif hnor hnand (by omega)
    refine ⟨st2, ?_, hG2, hs2, pres_trans (pres_trans (pres_advance st) hp4) hp2⟩
    rw [hcd, hmap]
    rw [List.foldl_cons]
    exact hrun

end QMLParser

namespace QMLParser

theorem eqLoop_chain :
    ∀ (rest : List (List Nat × List Nat)) (st : PState) (lhs : Expression)
      (tail : List Token) (n : Nat),
      Good st →
      sfx st = rest.flatMap (fun pv => eqTok :: atomToks pv.1 pv.2) ++ tail →
      st.map = mapToAlethicOperator →
      listPeek tail 0 ≠ .EQ → listPeek tail 0 ≠ .IF →
      listPeek tail 0 ≠ .OR → listPeek tail 0 ≠ .AND →
      12 * rest.length + 1 ≤ n →
      ∃ st2, run n (.eqLoop lhs) st =
          .ok (rest.foldl (fun acc pv => .binary .BICONDITIONAL acc (atomExpr pv.1 pv.2)) lhs) st2 ∧
        Good st2 ∧ sfx st2 = tail ∧ Pres st st2 := by
  intro rest
  induction rest with
  | nil =>
    intro st lhs tail n hG hs hmap hneq hnif hnor hnand hn
    obtain ⟨k, rfl⟩ : ∃ k, n = k + 1 := ⟨n - 1, by omega⟩
    have hst : sfx st = tail := by simpa using hs
    have hpk : st.peek 0 = listPeek tail 0 := by
      rw [peek_sfx hG.1, hst]
    refine ⟨st, ?_, hG, hst, pres_refl st⟩
    simpa using eqLoop_exit lhs (by rw [hpk]; exact hneq) k
  | cons pv rest' ih =>
    intro st lhs tail n hG hs hmap hneq hnif hnor hnand hn
    simp only [List.length_cons] at hn
    obtain ⟨k, rfl⟩ : ∃ k, n = k + 1 := ⟨n - 1, by omega⟩
    have hs' : sfx st = eqTok :: (atomToks pv.1 pv.2 ++
        (rest'.flatMap (fun q => eqTok :: atomToks q.1 q.2) ++ tail)) := by
      rw [hs]
      simp [List.append_assoc]
    have hpk : st.peek 0 = .EQ := by
      rw [peek_sfx hG.1, hs', listPeek_cons_zero]
      rfl
    rw [run_succ]
    dsimp only [runStep]
    rw [if_pos hpk]
    have ha1 := advance_sfx hG hs' (by decide)
    have hG1 := advance_good hG
    obtain ⟨j, rfl⟩ : ∃ j, k = j + 8 := ⟨k - 8, by omega⟩
    have hnext_or : listPeek (rest'.flatMap (fun q => eqTok :: atomToks q.1 q.2) ++ tail) 0
        ≠ .OR := by
      cases rest' with
      | nil => simpa using hnor
      | cons q qs =>
        rw [List.flatMap_cons, List.cons_append, List.cons_append, listPeek_cons_zero]
        decide
    have hnext_and : listPeek (rest'.flatMap (fun q => eqTok :: atomToks q.1 q.2) ++ tail) 0
        ≠ .AND := by
      cases rest' with
      | nil => simpa using hnand
      | cons q qs =>
        rw [List.flatMap_cons, List.cons_append, List.cons_append, listPeek_cons_zero]
        decide
    have hnext_if : listPeek (rest'.flatMap (fun q => eqTok :: atomToks q.1 q.2) ++ tail) 0
        ≠ .IF := by
      cases rest' with
      | nil => simpa using hnif
      | cons q qs =>
        rw [List.flatMap_cons, List.cons_append, List.cons_append, listPeek_cons_zero]
        decide
    obtain ⟨himp, hG4, hs4, hp4, hi4⟩ :=
      implication_atom hG1 ha1.1 hnext_or hnext_and hnext_if j
    have hmap4 : st.advance.advance.advance.advance.advance.map = mapToAlethicOperator := by
      rw [hp4.2.1, advance_map, hmap]
    obtain ⟨st2, hrun, hG2, hs2, hp2⟩ := ih st.advance.advance.advance.advance.advance
      (.binary .BICONDITIONAL lhs (atomExpr pv.1 pv.2)) tail (j + 8) hG4 hs4 hmap4
      hneq hnif hnor hnand (by omega)
    refine ⟨st2, ?_, hG2, hs2, pres_trans (pres_trans (pres_advance st) hp4) hp2⟩
    rw [himp, hmap]
    rw [List.foldl_cons]
    exact hrun

/-- The operator the conjunction/disjunction level associates with an
`AND`/`OR` token under the alethic mapping. -/
def cdOp (t : TokenType) : Operator :=
  if t = .OR then .DISJUNCTION else .CONJUNCTION

theorem cdLoop_chain :
    ∀ (steps : List (Token × List Nat × List Nat)) (st : PState) (lhs : Expression)
      (tail : List Token) (n : Nat),
      Good st →
      sfx st = steps.flatMap (fun s => s.1 :: atomToks s.2.1 s.2.2) ++ tail →
      st.map = mapToAlethicOperator →
      (∀ s ∈ steps, s.1.type = .AND ∨ s.1.type = .OR) →
      listPeek tail 0 ≠ .OR → listPeek tail 0 ≠ .AND →
      8 * steps.length + 1 ≤ n →
      ∃ st2, run n (.cdLoop lhs) st =
          .ok (steps.foldl
            (fun acc s => .binary (cdOp s.1.type) acc (atomExpr s.2.1 s.2.2)) lhs) st2 ∧
        Good st2 ∧ sfx st2 = tail ∧ Pres st st2 := by
  intro steps
  induction steps with
  | nil =>
    intro st lhs tail n hG hs hmap hsteps hnor hnand hn
    obtain ⟨k, rfl⟩ : ∃ k, n = k + 1 := ⟨n - 1, by omega⟩
    have hst : sfx st = tail := by simpa using hs
    have hpk : st.peek 0 = listPeek tail 0 := by
      rw [peek_sfx hG.1, hst]
    refine ⟨st, ?_, hG, hst, pres_refl st⟩
    simpa using cdLoop_exit lhs (by rw [hpk]; exact hnor) (by rw [hpk]; exact hnand) k
  | cons s0 steps' ih =>
    intro st lhs tail n hG hs hmap hsteps hnor hnand hn
    simp only [List.length_cons] at hn
    obtain ⟨k, rfl⟩ : ∃ k, n = k + 1 := ⟨n - 1, by omega⟩
    have hty := hsteps s0 (by simp)
    have hs' : sfx st = s0.1 :: (atomToks s0.2.1 s0.2.2 ++
        (steps'.flatMap (fun q => q.1 :: atomToks q.2.1 q.2.2) ++ tail)) := by
      rw [hs]
      simp [List.append_assoc]
    have htyne : s0.1.type ≠ .EOI := by
      rcases hty with h | h <;> rw [h] <;> decide
    have hpk : st.peek 0 = s0.1.type := by
      rw [peek_sfx hG.1, hs', listPeek_cons_zero]
    have hcond : st.peek 0 = .OR ∨ st.peek 0 = .AND := by
      rw [hpk]
      rcases hty with h | h <;> rw [h]
      · exact Or.inr rfl
      · exact Or.inl rfl
    rw [run_succ]
    dsimp only [runStep]
    rw [if_pos hcond]
    have hcur : st.getToken st.index = s0.1 := getToken_of_sfx hs'
    have ha1 := advance_sfx hG hs' htyne
    have hG1 := advance_good hG
    obtain ⟨j, rfl⟩ : ∃ j, k = j + 4 := ⟨k - 4, by omega⟩
    obtain ⟨hcl, hG4, hs4, hp4, hi4⟩ := clause_atom hG1 ha1.1 j
    have hmap4 : st.advance.advance.advance.advance.advance.map = mapToAlethicOperator := by
      rw [hp4.2.1, advance_map, hmap]
    obtain ⟨st2, hrun, hG2, hs2, hp2⟩ := ih st.advance.advance.advance.advance.advance
      (.binary (cdOp s0.1.type) lhs (atomExpr s0.2.1 s0.2.2)) tail (j + 4) hG4 hs4 hmap4
      (fun s hmem => hsteps s (by simp [hmem])) hnor hnand (by omega)
    refine ⟨st2, ?_, hG2, hs2, pres_trans (pres_trans (pres_advance st) hp4) hp2⟩
    rw [hcur, hmap]
    rcases hty with h | h <;> rw [h]
    · -- AND
      rw [if_neg (by decide)]
      rw [hcl]
      rw [List.foldl_cons]
      have hco : cdOp s0.1.type = .CONJUNCTION := by
        unfold cdOp
        rw [h]
        rw [if_neg (by decide)]
      rw [hco] at hrun ⊢
      exact hrun
    · -- OR
      rw [if_pos rfl]
      rw [hcl]
      rw [List.foldl_cons]
      have hco : cdOp s0.1.type = .DISJUNCTION := by
        unfold cdOp
        rw [h]
        rw [if_pos rfl]
      rw [hco] at hrun ⊢
      exact hrun

end QMLParser

namespace QMLParser

/-- The token sequence of a `→` chain: a first atomic operand `p(v)`
followed by one `→ q(w)` group per element of `chain`. -/
def impChainToks (p v : List Nat) (chain : List (List Nat × List Nat)) : List Token :=
  atomToks p v ++ chain.flatMap (fun q => ifTok :: atomToks q.1 q.2)

/-- The token sequence of a `↔` chain. -/
def eqChainToks (p v : List Nat) (chain : List (List Nat × List Nat)) : List Token :=
  atomToks p v ++ chain.flatMap (fun q => eqTok :: atomToks q.1 q.2)

/-- The token sequence of a mixed `∧`/`∨` chain: each element carries its
own operator token. -/
def cdChainToks (p v : List Nat) (chain : List (Token × List Nat × List Nat)) : List Token :=
  atomToks p v ++ chain.flatMap (fun s => s.1 :: atomToks s.2.1 s.2.2)

/-- The left-nested AST of a `→` chain. -/
def impChainExpr (p v : List Nat) (chain : List (List Nat × List Nat)) : Expression :=
  chain.foldl (fun acc q => .binary .CONDITIONAL acc (atomExpr q.1 q.2)) (atomExpr p v)

/-- The left-nested AST of a `↔` chain. -/
def eqChainExpr (p v : List Nat) (chain : List (List Nat × List Nat)) : Expression :=
  chain.foldl (fun acc q => .binary .BICONDITIONAL acc (atomExpr q.1 q.2)) (atomExpr p v)

/-- The left-nested AST of a mixed `∧`/`∨` chain, folded strictly
left-to-right in textual order. -/
def cdChainExpr (p v : List Nat) (chain : List (Token × List Nat × List Nat)) : Expression :=
  chain.foldl (fun acc s => .binary (cdOp s.1.type) acc (atomExpr s.2.1 s.2.2)) (atomExpr p v)

theorem implication_chain {st : PState} {p v : List Nat}
    {chain : List (List Nat × List Nat)} {tail : List Token} {n : Nat}
    (hG : Good st) (hs : sfx st = impChainToks p v chain ++ tail)
    (hmap : st.map = mapToAlethicOperator)
    (hnif : listPeek tail 0 ≠ .IF) (hnor : listPeek tail 0 ≠ .OR)
    (hnand : listPeek tail 0 ≠ .AND)
    (hn : 10 * chain.length + 8 ≤ n) :
    ∃ st2, run n (.rule .implication) st = .ok (impChainExpr p v chain) st2 ∧
      Good st2 ∧ sfx st2 = tail ∧ Pres st st2 := by
  obtain ⟨m, rfl⟩ : ∃ m, n = m + 1 := ⟨n - 1, by omega⟩
  have hs' : sfx st = atomToks p v ++
      (chain.flatMap (fun q => ifTok :: atomToks q.1 q.2) ++ tail) := by
    rw [hs, impChainToks, List.append_assoc]
  have hnor' : listPeek (chain.flatMap (fun q => ifTok :: atomToks q.1 q.2) ++ tail) 0
      ≠ .OR := by
    cases chain with
    | nil => simpa using hnor
    | cons q qs =>
      rw [List.flatMap_cons, List.cons_append, List.cons_append, listPeek_cons_zero]
      decide
  have hnand' : listPeek (chain.flatMap (fun q => ifTok :: atomToks q.1 q.2) ++ tail) 0
      ≠ .AND := by
    cases chain with
    | nil => simpa using hnand
    | cons q qs =>
      rw [List.flatMap_cons, List.cons_append, List.cons_append, listPeek_cons_zero]
      decide
  obtain ⟨j, rfl⟩ : ∃ j, m = j + 6 := ⟨m - 6, by omega⟩
  obtain ⟨hcd, hG4, hs4, hp4, hi4⟩ := conjdisj_atom hG hs' hnor' hnand' j
  have hmap4 : st.advance.advance.advance.advance.map = mapToAlethicOperator := by
    rw [hp4.2.1, hmap]
  obtain ⟨st2, hrun, hG2, hs2, hp2⟩ := impLoop_chain chain
    st.advance.advance.advance.advance (atomExpr p v) tail (j + 6) hG4 hs4 hmap4
    hnif hnor hnand (by omega)
  refine ⟨st2, ?_, hG2, hs2, pres_trans hp4 hp2⟩
  rw [run_succ]
  dsimp only [runStep]
  rw [hcd]
  exact hrun

theorem equivalence_chain {st : PState} {p v : List Nat}
    {chain : List (List Nat × List Nat)} {tail : List Token} {n : Nat}
    (hG : Good st) (hs : sfx st = eqChainToks p v chain ++ tail)
    (hmap : st.map = mapToAlethicOperator)
    (hneq : listPeek tail 0 ≠ .EQ) (hnif : listPeek tail 0 ≠ .IF)
    (hnor : listPeek tail 0 ≠ .OR) (hnand : listPeek tail 0 ≠ .AND)
    (hn : 12 * chain.length + 10 ≤ n) :
    ∃ st2, run n (.rule .equivalence) st = .ok (eqChainExpr p v chain) st2 ∧
      Good st2 ∧ sfx st2 = tail ∧ Pres st st2 := by
  obtain ⟨m, rfl⟩ : ∃ m, n = m + 1 := ⟨n - 1, by omega⟩
  have hs' : sfx st = atomToks p v ++
      (chain.flatMap (fun q => eqTok :: atomToks q.1 q.2) ++ tail) := by
    rw [hs, eqChainToks, List.append_assoc]
  have hnor' : listPeek (chain.flatMap (fun q => eqTok :: atomToks q.1 q.2) ++ tail) 0
      ≠ .OR := by
    cases chain with
    | nil => simpa using hnor
    | cons q qs =>
      rw [List.flatMap_cons, List.cons_append, List.cons_append, listPeek_cons_zero]
      decide
  have hnand' : listPeek (chain.flatMap (fun q => eqTok :: atomToks q.1 q.2) ++ tail) 0
      ≠ .AND := by
    cases chain with
    | nil => simpa using hnand
    | cons q qs =>
      rw [List.flatMap_cons, List.cons_append, List.cons_append, listPeek_cons_zero]
      decide
  have hnif' : listPeek (chain.flatMap (fun q => eqTok :: atomToks q.1 q.2) ++ tail) 0
      ≠ .IF := by
    cases chain with
    | nil => simpa using hnif
    | cons q qs =>
      rw [List.flatMap_cons, List.cons_append, List.cons_append, listPeek_cons_zero]
      decide
  obtain ⟨j, rfl⟩ : ∃ j, m = j + 8 := ⟨m - 8, by omega⟩
  obtain ⟨himp, hG4, hs4, hp4, hi4⟩ := implication_atom hG hs' hnor' hnand' hnif' j
  have hmap4 : st.advance.advance.advance.advance.map = mapToAlethicOperator := by
    rw [hp4.2.1, hmap]
  obtain ⟨st2, hrun, hG2, hs2, hp2⟩ := eqLoop_chain chain
    st.advance.advance.advance.advance (atomExpr p v) tail (j + 8) hG4 hs4 hmap4
    hneq hnif hnor hnand (by omega)
  refine ⟨st2, ?_, hG2, hs2, pres_trans hp4 hp2⟩
  rw [run_succ]
  dsimp only [runStep]
  rw [himp]
  exact hrun

theorem conjdisj_chain {st : PState} {p v : List Nat}
    {chain : List (Token × List Nat × List Nat)} {tail : List Token} {n : Nat}
    (hG : Good st) (hs : sfx st = cdChainToks p v chain ++ tail)
    (hmap : st.map = mapToAlethicOperator)
    (hsteps : ∀ s ∈ chain, s.1.type = .AND ∨ s.1.type = .OR)
    (hnor : listPeek tail 0 ≠ .OR) (hnand : listPeek tail 0 ≠ .AND)
    (hn : 8 * chain.length + 6 ≤ n) :
    ∃ st2, run n (.rule .conjunction_disjunction) st =
        .ok (cdChainExpr p v chain) st2 ∧
      Good st2 ∧ sfx st2 = tail ∧ Pres st st2 := by
  obtain ⟨m, rfl⟩ : ∃ m, n = m + 1 := ⟨n - 1, by omega⟩
  have hs' : sfx st = atomToks p v ++
      (chain.flatMap (fun s => s.1 :: atomToks s.2.1 s.2.2) ++ tail) := by
    rw [hs, cdChainToks, List.append_assoc]
  obtain ⟨j, rfl⟩ : ∃ j, m = j + 4 := ⟨m - 4, by omega⟩
  obtain ⟨hcl, hG4, hs4, hp4, hi4⟩ := clause_atom hG hs' j
  have hmap4 : st.advance.advance.advance.advance.map = mapToAlethicOperator := by
    rw [hp4.2.1, hmap]
  obtain ⟨st2, hrun, hG2, hs2, hp2⟩ := cdLoop_chain chain
    st.advance.advance.advance.advance (atomExpr p v) tail (j + 4) hG4 hs4 hmap4
    hsteps hnor hnand (by omega)
  refine ⟨st2, ?_, hG2, hs2, pres_trans hp4 hp2⟩
  rw [run_succ]
  dsimp only [runStep]
  rw [hcl]
  exact hrun

end QMLParser

namespace QMLParser

/-- The UTF-8 bytes of the formula string in the claim's concrete example,
P(x) then an arrow then Q(x) then an arrow then R(x), space-separated. -/
def c4Bytes : List Nat :=
  [0x50, 0x28, 0x78, 0x29, 0x20, 0xE2, 0x86, 0x92, 0x20,
   0x51, 0x28, 0x78, 0x29, 0x20, 0xE2, 0x86, 0x92, 0x20,
   0x52, 0x28, 0x78, 0x29]

/-- C4: each binary level folds left-associatively.  For every chain of two
or more atomic operands joined by IF tokens, the implication level returns
the left-nested fold under CONDITIONAL; likewise the equivalence level for
EQ chains under BICONDITIONAL; and mixed AND/OR chains form a single
precedence class at the conjunction/disjunction level, folded strictly
left-to-right in textual order with each operator's own mapping.
Concretely, parsing the string with bytes of P(x) arrow Q(x) arrow R(x)
returns Binary(COND, Binary(COND, P, Q), R), not a right-nested tree. -/
theorem binary_levels_left_associative :
    (∀ (p v : List Nat) (chain : List (List Nat × List Nat)) (st : PState)
       (tail : List Token) (n : Nat),
       chain ≠ [] → Good st → sfx st = impChainToks p v chain ++ tail →
       st.map = mapToAlethicOperator →
       listPeek tail 0 ≠ .IF → listPeek tail 0 ≠ .OR → listPeek tail 0 ≠ .AND →
       10 * chain.length + 8 ≤ n →
       ∃ st2, run n (.rule .implication) st = .ok (impChainExpr p v chain) st2 ∧
         Good st2 ∧ sfx st2 = tail)
  ∧ (∀ (p v : List Nat) (chain : List (List Nat × List Nat)) (st : PState)
       (tail : List Token) (n : Nat),
       chain ≠ [] → Good st → sfx st = eqChainToks p v chain ++ tail →
       st.map = mapToAlethicOperator →
       listPeek tail 0 ≠ .EQ → listPeek tail 0 ≠ .IF →
       listPeek tail 0 ≠ .OR → listPeek tail 0 ≠ .AND →
       12 * chain.length + 10 ≤ n →
       ∃ st2, run n (.rule .equivalence) st = .ok (eqChainExpr p v chain) st2 ∧
         Good st2 ∧ sfx st2 = tail)
  ∧ (∀ (p v : List Nat) (chain : List (Token × List Nat × List Nat)) (st : PState)
       (tail : List Token) (n : Nat),
       chain ≠ [] → Good st → sfx st = cdChainToks p v chain ++ tail →
       st.map = mapToAlethicOperator →
       (∀ s ∈ chain, s.1.type = .AND ∨ s.1.type = .OR) →
       listPeek tail 0 ≠ .OR → listPeek tail 0 ≠ .AND →
       8 * chain.length + 6 ≤ n →
       ∃ st2, run n (.rule .conjunction_disjunction) st =
           .ok (cdChainExpr p v chain) st2 ∧
         Good st2 ∧ sfx st2 = tail)
  ∧ (parse 64 c4Bytes .equivalence mapToAlethicOperator).toResult =
      some (.ok (.binary .CONDITIONAL
        (.binary .CONDITIONAL (atomExpr [0x50] [0x78]) (atomExpr [0x51] [0x78]))
        (atomExpr [0x52] [0x78]))) := by
  refine ⟨?_, ?_, ?_, ?_⟩
  · intro p v chain st tail n hne hG hs hmap hnif hnor hnand hn
    obtain ⟨st2, h1, h2, h3, _⟩ := implication_chain hG hs hmap hnif hnor hnand hn
    exact ⟨st2, h1, h2, h3⟩
  · intro p v chain st tail n hne hG hs hmap hneq hnif hnor hnand hn
    obtain ⟨st2, h1, h2, h3, _⟩ := equivalence_chain hG hs hmap hneq hnif hnor hnand hn
    exact ⟨st2, h1, h2, h3⟩
  · intro p v chain st tail n hne hG hs hmap hsteps hnor hnand hn
    obtain ⟨st2, h1, h2, h3, _⟩ := conjdisj_chain hG hs hmap hsteps hnor hnand hn
    exact ⟨st2, h1, h2, h3⟩
  · rfl

/-- A concrete starting state whose tokens form the IF chain of P(x) then Q(x). -/
def c4ImpWitState : PState :=
  ⟨0, .IDENTIFIER, impChainToks [0x50] [0x78] [([0x51], [0x78])] ++ [eoiToken],
   mapToAlethicOperator, .equivalence⟩

/-- A concrete starting state whose tokens form the EQ chain of P(x) then Q(x). -/
def c4EqWitState : PState :=
  ⟨0, .IDENTIFIER, eqChainToks [0x50] [0x78] [([0x51], [0x78])] ++ [eoiToken],
   mapToAlethicOperator, .equivalence⟩

/-- A concrete starting state whose tokens form the mixed chain
P(x) and Q(x) or R(x). -/
def c4CdWitState : PState :=
  ⟨0, .IDENTIFIER,
   cdChainToks [0x50] [0x78] [(andTok, [0x51], [0x78]), (orTok, [0x52], [0x78])] ++ [eoiToken],
   mapToAlethicOperator, .equivalence⟩

/-- Witness for C4 at concrete chains: a two-operand IF chain, a two-operand
EQ chain, and a three-operand mixed AND/OR chain, each starting from an
explicit well-formed state. -/
theorem binary_levels_left_associative_witness :
    (∃ st2, run 18 (.rule .implication) c4ImpWitState =
        .ok (impChainExpr [0x50] [0x78] [([0x51], [0x78])]) st2 ∧
      Good st2 ∧ sfx st2 = [eoiToken])
  ∧ (∃ st2, run 22 (.rule .equivalence) c4EqWitState =
        .ok (eqChainExpr [0x50] [0x78] [([0x51], [0x78])]) st2 ∧
      Good st2 ∧ sfx st2 = [eoiToken])
  ∧ (∃ st2, run 22 (.rule .conjunction_disjunction) c4CdWitState =
        .ok (cdChainExpr [0x50] [0x78] [(andTok, [0x51], [0x78]), (orTok, [0x52], [0x78])]) st2 ∧
      Good st2 ∧ sfx st2 = [eoiToken]) := by
  refine ⟨?_, ?_, ?_⟩
  · exact binary_levels_left_associative.1 [0x50] [0x78] [([0x51], [0x78])]
      c4ImpWitState [eoiToken] 18 (by decide) (by unfold Good; decide) rfl rfl
      (by decide) (by decide) (by decide) (by decide)
  · exact binary_levels_left_associative.2.1 [0x50] [0x78] [([0x51], [0x78])]
      c4EqWitState [eoiToken] 22 (by decide) (by unfold Good; decide) rfl rfl
      (by decide) (by decide) (by decide) (by decide) (by decide)
  · exact binary_levels_left_associative.2.2.1 [0x50] [0x78]
      [(andTok, [0x51], [0x78]), (orTok, [0x52], [0x78])]
      c4CdWitState [eoiToken] 22 (by decide) (by unfold Good; decide) rfl rfl
      (by decide) (by decide) (by decide) (by decide)
  -- fuel bounds: 10*1+8 = 18, 12*1+10 = 22, 8*2+6 = 22

end QMLParser
